import Mathlib

/-!
Verification of the CreativElixir retrieval and script-generation core.

This file shallowly embeds the Python sources `src/script_generator.py`
(output parsing, generation workflow) and `src/rag_system.py` (per-category
FAISS-style vector index with keyword fallback) as executable Lean
definitions, and proves the specification claims about them.

Strings are modelled as `List Char` internally (`String` at the data-model
boundary).  Python regular-expression substitutions are transcribed as
deterministic scanners that follow the exact leftmost / greedy / lazy
semantics of the patterns appearing in the source.
-/

namespace CreativElixir

/-! ## Python-style string primitives -/

/-- Characters treated as whitespace by Python's str.strip / str.split
(ASCII whitespace; the sources only ever strip spaces, tabs and newlines). -/
def pyIsSpace (c : Char) : Bool :=
  c = ' ' ∨ c = '\t' ∨ c = '\n' ∨ c = '\r' ∨ c = '\x0b' ∨ c = '\x0c'

/-- Python str.strip on a character list. -/
def pyStripL (l : List Char) : List Char :=
  ((l.dropWhile pyIsSpace).reverse.dropWhile pyIsSpace).reverse

/-- Python str.lower (ASCII case folding; CJK characters are unaffected,
matching the inputs handled by the source). -/
def toLowerL (l : List Char) : List Char := l.map Char.toLower

/-- Python str.split(sep) for a one-character separator: keeps empty chunks. -/
def splitOnChar (sep : Char) : List Char → List (List Char)
  | [] => [[]]
  | c :: cs =>
    if c = sep then [] :: splitOnChar sep cs
    else
      match splitOnChar sep cs with
      | [] => [[c]]
      | g :: gs => (c :: g) :: gs

/-- Python str.split() with no argument: split on whitespace runs,
dropping empty chunks. -/
def splitWsAux : Nat → List Char → List (List Char)
  | 0, _ => []
  | fuel + 1, cs =>
    let cs1 := cs.dropWhile pyIsSpace
    match cs1 with
    | [] => []
    | _ :: _ =>
      let w := cs1.takeWhile (fun c => !pyIsSpace c)
      w :: splitWsAux fuel (cs1.drop w.length)

def splitWs (l : List Char) : List (List Char) := splitWsAux l.length l

/-- Python substring membership needle in hay. -/
def occursIn (needle : List Char) : List Char → Bool
  | [] => needle.isEmpty
  | c :: cs => needle.isPrefixOf (c :: cs) || occursIn needle cs

/-- Python "\n".join: interleave a newline between lines. -/
def joinLines : List (List Char) → List Char
  | [] => []
  | [l] => l
  | l :: l' :: ls => l ++ '\n' :: joinLines (l' :: ls)

/-- Python str.split('\n'). -/
def splitLines (l : List Char) : List (List Char) := splitOnChar '\n' l

/-! ## The HTML cleanup `_clean_html_tags`

The Python function applies, in order, the regex substitutions
  1. `<br\s*/?>`      ↦ '；'
  2. `</?p\s*/?>`     ↦ ''
  3. `</?div\s*/?>`   ↦ ''
  4. `</?span[^>]*>`  ↦ ''
  5. `<[^>]+>`        ↦ ''
  6. `；+`            ↦ '；'
  7. `^\s*；\s*`      ↦ ''
  8. `\s*；\s*$`      ↦ ''
and finally str.strip().  Each substitution below is a left-to-right
scanner whose per-position matcher realises the (deterministic, for these
patterns) greedy semantics of the regex. -/

/-- Matcher for `<br\s*/?>` at the head of the list; returns the remainder
after the match. -/
def tryBr : List Char → Option (List Char)
  | '<' :: 'b' :: 'r' :: cs =>
    match cs.dropWhile pyIsSpace with
    | '/' :: '>' :: rest => some rest
    | '>' :: rest => some rest
    | _ => none
  | _ => none

/-- Matcher for `</?NAME\s*/?>` (used for the p and div tags). -/
def tryTagNamed (name : List Char) (l : List Char) : Option (List Char) :=
  match l with
  | '<' :: cs =>
    let cs1 := if cs.head? = some '/' then cs.tail else cs
    if name.isPrefixOf cs1 then
      match (cs1.drop name.length).dropWhile pyIsSpace with
      | '/' :: '>' :: rest => some rest
      | '>' :: rest => some rest
      | _ => none
    else none
  | _ => none

/-- Matcher for `</?span[^>]*>`. -/
def trySpan (l : List Char) : Option (List Char) :=
  match l with
  | '<' :: cs =>
    let cs1 := if cs.head? = some '/' then cs.tail else cs
    if ("span".data).isPrefixOf cs1 then
      match (cs1.drop 4).dropWhile (fun c => !(c = '>')) with
      | '>' :: rest => some rest
      | _ => none
    else none
  | _ => none

/-- Matcher for `<[^>]+>`. -/
def tryAny : List Char → Option (List Char)
  | '<' :: cs =>
    let body := cs.takeWhile (fun c => !(c = '>'))
    if body = [] then none
    else
      match cs.drop body.length with
      | '>' :: rest => some rest
      | _ => none
  | _ => none

/-- Generic re.sub scanner: at each position, if the matcher fires, emit the
replacement and resume after the match (re.sub does not rescan replacements);
otherwise keep the character. -/
def subRepAux (m : List Char → Option (List Char)) (rep : List Char) :
    Nat → List Char → List Char
  | 0, l => l
  | _ + 1, [] => []
  | fuel + 1, c :: cs =>
    match m (c :: cs) with
    | some rest => rep ++ subRepAux m rep fuel rest
    | none => c :: subRepAux m rep fuel cs

def subRep (m : List Char → Option (List Char)) (rep : List Char)
    (l : List Char) : List Char :=
  subRepAux m rep l.length l

/-- The substitution `；+` ↦ `；`: collapse adjacent duplicate '；'. -/
def collapseSemi : List Char → List Char
  | [] => []
  | [c] => [c]
  | a :: b :: t =>
    if a = '；' ∧ b = '；' then collapseSemi (b :: t)
    else a :: collapseSemi (b :: t)

/-- The substitution `^\s*；\s*` ↦ '': strip one leading '；' together with
surrounding whitespace. -/
def leadSemiStrip (l : List Char) : List Char :=
  match l.dropWhile pyIsSpace with
  | '；' :: r => r.dropWhile pyIsSpace
  | _ => l

/-- The substitution `\s*；\s*$` ↦ '': strip one trailing '；' together with
surrounding whitespace. -/
def trailSemiStrip (l : List Char) : List Char :=
  match l.reverse.dropWhile pyIsSpace with
  | '；' :: r => (r.dropWhile pyIsSpace).reverse
  | _ => l

/-- Embedding of `_clean_html_tags` from src/script_generator.py (the
source's early return on the empty string agrees with the pipeline, which
maps the empty list to itself). -/
def cleanL (l : List Char) : List Char :=
  pyStripL (trailSemiStrip (leadSemiStrip (collapseSemi
    (subRep tryAny []
      (subRep trySpan []
        (subRep (tryTagNamed "div".data) []
          (subRep (tryTagNamed "p".data) []
            (subRep tryBr ['；'] l))))))))

def _clean_html_tags (s : String) : String := ⟨cleanL s.data⟩

example : _clean_html_tags ⟨"A<br>B".data⟩ = ⟨"A；B".data⟩ := by decide
example : _clean_html_tags ⟨"a<p> b </p>c".data⟩ = ⟨"a b c".data⟩ := by decide
example : _clean_html_tags ⟨"  x<br/><br />y；；z  ".data⟩ = ⟨"x；y；z".data⟩ := by
  decide
example : _clean_html_tags ⟨"； ；a".data⟩ = ⟨"；a".data⟩ := by decide
example : _clean_html_tags ⟨"；a".data⟩ = ⟨"a".data⟩ := by decide
example : _clean_html_tags ⟨"<span class=x>t</span>".data⟩ = ⟨"t".data⟩ := by
  decide

/-! ## The `ScriptOutput` data class -/

/-- Embedding of the ScriptOutput dataclass from src/script_generator.py. -/
structure ScriptOutput where
  storyboard : List String
  voiceover : List String
  design_intent : List String
  raw_content : String
deriving DecidableEq, Repr

/-- ScriptOutput.is_valid: the three columns are non-empty and of equal
length. -/
def ScriptOutput.is_valid (o : ScriptOutput) : Bool :=
  if o.storyboard.isEmpty ∨ o.voiceover.isEmpty ∨ o.design_intent.isEmpty then
    false
  else
    o.storyboard.length = o.voiceover.length ∧
      o.voiceover.length = o.design_intent.length

/-- One rendered Markdown table row "| a | b | c |". -/
def mdRowL (a b c : List Char) : List Char :=
  "| ".data ++ a ++ " | ".data ++ b ++ " | ".data ++ c ++ " |".data

def mdHeaderL1 : List Char := "| 分镜 | 口播 | 设计意图 |".data
def mdHeaderL2 : List Char := "|------|------|----------|".data

/-- ScriptOutput.to_markdown_table.  The source indexes the voiceover and
design lists with the storyboard index, which is total because the
function is only entered on valid outputs (equal lengths); zipWith3 agrees
with that indexing on the valid branch. -/
def ScriptOutput.to_markdown_table (o : ScriptOutput) : String :=
  if ¬ o.is_valid then o.raw_content
  else
    ⟨joinLines (mdHeaderL1 :: mdHeaderL2 ::
      List.zipWith3 (fun a b c => mdRowL a.data b.data c.data)
        o.storyboard o.voiceover o.design_intent)⟩

/-! ## The markdown-table parsing strategy -/

/-- `_is_table_header`: the line (case folded) mentions one of the column
keywords. -/
def _is_table_header (line : List Char) : Bool :=
  let low := toLowerL line
  ["分镜".data, "口播".data, "设计".data, "画面".data, "文案".data,
    "意图".data, "storyboard".data, "voiceover".data, "design".data].any
    (fun kw => occursIn kw low)

/-- The separator-row test `re.match(r'^[\|\-\:\s]+$', stripped)`. -/
def isSepRow (l : List Char) : Bool :=
  !l.isEmpty && l.all (fun c => c = '|' ∨ c = '-' ∨ c = ':' ∨ pyIsSpace c)

/-- The table-line collection loop of `_parse_markdown_table`: keep stripped
lines containing '|', skipping separator rows (which switch the in-table
flag on), starting at the first header-keyword line or separator row. -/
def collectTableLines : Bool → List (List Char) → List (List Char)
  | _, [] => []
  | inT, line :: ls =>
    let s := pyStripL line
    if s.any (fun c => c = '|') then
      if isSepRow s then collectTableLines true ls
      else if inT || _is_table_header s then s :: collectTableLines true ls
      else collectTableLines inT ls
    else collectTableLines inT ls

/-- Split a table row on '|', strip each cell and drop empty cells. -/
def rowCells (l : List Char) : List (List Char) :=
  ((splitOnChar '|' l).map pyStripL).filter (fun c => !c.isEmpty)

/-- The header-scanning loop of `_parse_markdown_table`: locate the
storyboard / voiceover / design columns by keyword (later matches win,
mirroring the source's plain assignments inside the loop). -/
def headerIdxAux : Nat → List (List Char) → Int × Int × Int → Int × Int × Int
  | _, [], acc => acc
  | i, cell :: cells, (si, vi, di) =>
    let low := toLowerL cell
    let acc :=
      if occursIn "分镜".data cell ∨ occursIn "storyboard".data low ∨
          occursIn "画面".data cell then
        ((i : Int), vi, di)
      else if occursIn "口播".data cell ∨ occursIn "voiceover".data low ∨
          occursIn "文案".data cell ∨ occursIn "旁白".data cell then
        (si, (i : Int), di)
      else if occursIn "设计".data cell ∨ occursIn "意图".data cell ∨
          occursIn "design".data low ∨ occursIn "intent".data low then
        (si, vi, (i : Int))
      else (si, vi, di)
    headerIdxAux (i + 1) cells acc

def headerIdx (cells : List (List Char)) : Int × Int × Int :=
  headerIdxAux 0 cells (-1, -1, -1)

/-- The data-row extraction of `_parse_markdown_table`: rows with at least
three non-empty cells contribute their cells at the three column indices,
cleaned; out-of-range indices contribute the empty cell. -/
def mdDataRow (sIdx vIdx dIdx : Nat) (line : List Char) :
    Option (List Char × List Char × List Char) :=
  let cells := rowCells line
  if 3 ≤ cells.length then
    some (cleanL (cells.getD sIdx []), cleanL (cells.getD vIdx []),
      cleanL (cells.getD dIdx []))
  else none

/-- The column-resolution step of `_parse_markdown_table`: keyword-located
indices, falling back to positional order (0, 1, 2) when at least three
header cells exist, and failing otherwise. -/
def mdColumnIdxs (header_cells : List (List Char)) : Option (Nat × Nat × Nat) :=
  let (si, vi, di) := headerIdx header_cells
  if si = -1 ∨ vi = -1 ∨ di = -1 then
    if 3 ≤ header_cells.length then some (0, 1, 2) else none
  else some (si.toNat, vi.toNat, di.toNat)

/-- The tail of `_parse_markdown_table` applied to the collected table
lines: resolve the columns from the first line, then extract the data
rows. -/
def mdFromTableLines (text : List Char) :
    List (List Char) → Option ScriptOutput
  | header :: row1 :: rows =>
    match mdColumnIdxs (rowCells header) with
    | none => none
    | some (s, v, d) =>
      let triples := (row1 :: rows).filterMap (mdDataRow s v d)
      if triples.isEmpty then none
      else
        some ⟨triples.map (fun t => ⟨t.1⟩), triples.map (fun t => ⟨t.2.1⟩),
          triples.map (fun t => ⟨t.2.2⟩), ⟨text⟩⟩
  | _ => none

/-- Embedding of `_parse_markdown_table`. -/
def _parse_markdown_tableL (text : List Char) : Option ScriptOutput :=
  mdFromTableLines text (collectTableLines false (splitLines (pyStripL text)))

/-! ## The delimiter parsing strategy -/

/-- The per-line extraction of `_parse_delimiter_format`: strip, skip empty
and header lines, try at least three non-empty pipe-separated parts, then
at least three non-empty slash-separated parts. -/
def delimLine (line : List Char) :
    Option (List Char × List Char × List Char) :=
  let s := pyStripL line
  if s.isEmpty then none
  else if _is_table_header s then none
  else
    let tryPipe : Option (List Char × List Char × List Char) :=
      if s.any (fun c => c = '|') then
        let parts := rowCells s
        if 3 ≤ parts.length then
          some (cleanL (parts.getD 0 []), cleanL (parts.getD 1 []),
            cleanL (parts.getD 2 []))
        else none
      else none
    match tryPipe with
    | some t => some t
    | none =>
      if s.any (fun c => c = '/') then
        let parts := ((splitOnChar '/' s).map pyStripL).filter
          (fun c => !c.isEmpty)
        if 3 ≤ parts.length then
          some (cleanL (parts.getD 0 []), cleanL (parts.getD 1 []),
            cleanL (parts.getD 2 []))
        else none
      else none

/-- Embedding of `_parse_delimiter_format`: per stripped non-header line,
try '|' with at least three non-empty parts, otherwise try '/'. -/
def _parse_delimiter_formatL (text : List Char) : Option ScriptOutput :=
  let lines := splitLines (pyStripL text)
  let triples := lines.filterMap delimLine
  if triples.isEmpty then none
  else
    some ⟨triples.map (fun t => ⟨t.1⟩), triples.map (fun t => ⟨t.2.1⟩),
      triples.map (fun t => ⟨t.2.2⟩), ⟨text⟩⟩

/-! ## The tag parsing strategy

`_parse_tag_format` extracts the captures of
`\[TAG\][:：]?\s*([^\[]+?)(?=\[|$)` (re.DOTALL) for the three tags.
The combinators below realise the regex's backtracking order:
an optional colon prefers being consumed, `\s*` is greedy, the capture
`[^\[]+?` is lazy and stops at the first position whose lookahead
(next char '[', end of text, or a final newline only) succeeds. -/

/-- `[:：]?` with full backtracking into the continuation. -/
def colonOptThen (k : List Char → Option α) : List Char → Option α
  | [] => k []
  | c :: cs =>
    if c = ':' ∨ c = '：' then (k cs).orElse (fun _ => k (c :: cs))
    else k (c :: cs)

/-- `\s*` (greedy) with full backtracking into the continuation. -/
def wsStarThen (k : List Char → Option α) : List Char → Option α
  | [] => k []
  | c :: cs =>
    if pyIsSpace c then (wsStarThen k cs).orElse (fun _ => k (c :: cs))
    else k (c :: cs)

/-- Lookahead `(?=\[|$)` where `$` matches at the end of the text or just
before a final newline. -/
def lookLbrackOrEnd (cs : List Char) : Bool :=
  cs.isEmpty || cs.head? = some '[' || cs = ['\n']

/-- The lazy capture `([^\[]+?)(?=\[|$)`: shortest non-empty run of
non-'[' characters whose following position satisfies the lookahead. -/
def lazyCapNonLbrack : List Char → Option (List Char × List Char)
  | [] => none
  | c :: rest =>
    if c = '[' then none
    else if lookLbrackOrEnd rest then some ([c], rest)
    else (lazyCapNonLbrack rest).map (fun p => (c :: p.1, p.2))

/-- Try the whole tag pattern at the current position; on success return the
capture and the remainder after the match. -/
def tryTagAt (tag : List Char) (l : List Char) : Option (List Char × List Char) :=
  let pre := '[' :: tag ++ [']']
  if pre.isPrefixOf l then
    colonOptThen (wsStarThen lazyCapNonLbrack) (l.drop pre.length)
  else none

/-- re.findall scanning: try the matcher at every position, resuming after
each match (matches never overlap). -/
def scanMatches (m : List Char → Option (α × List Char)) :
    Nat → List Char → List α
  | 0, _ => []
  | _ + 1, [] => []
  | fuel + 1, c :: cs =>
    match m (c :: cs) with
    | some (a, rest) => a :: scanMatches m fuel rest
    | none => scanMatches m fuel cs

def tagFindAll (tag : List Char) (text : List Char) : List (List Char) :=
  scanMatches (tryTagAt tag) text.length text

/-- Embedding of `_parse_tag_format`. -/
def _parse_tag_formatL (text : List Char) : Option ScriptOutput :=
  let sbm := tagFindAll "分镜".data text
  let vom := tagFindAll "口播".data text
  let dsm := tagFindAll "设计意图".data text
  if sbm.isEmpty ∨ vom.isEmpty ∨ dsm.isEmpty then none
  else
    let sb := ((sbm.map pyStripL).filter (fun m => !m.isEmpty)).map cleanL
    let vo := ((vom.map pyStripL).filter (fun m => !m.isEmpty)).map cleanL
    let ds := ((dsm.map pyStripL).filter (fun m => !m.isEmpty)).map cleanL
    let minLen := min sb.length (min vo.length ds.length)
    if minLen = 0 then none
    else
      some ⟨(sb.take minLen).map (⟨·⟩), (vo.take minLen).map (⟨·⟩),
        (ds.take minLen).map (⟨·⟩), ⟨text⟩⟩

/-! ## The numbered-list parsing strategy

`_parse_numbered_format` uses (re.DOTALL)
`(\d+)[\.、]\s*(?:分镜[:：]?\s*)?(.+?)(?:口播[:：]?\s*)(.+?)(?:设计意图[:：]?\s*)(.+?)(?=\d+[\.、]|$)`
transcribed with the same backtracking-faithful combinators; the lazy `.+?`
captures grow shortest-first under DOTALL. -/

/-- A lazy `(.+?)` capture (DOTALL: matches any character), shortest-first,
with full backtracking into the continuation. -/
def lazyAnyThen (k : List Char → List Char → Option α) : List Char → Option α
  | [] => none
  | c :: cs =>
    (k [c] cs).orElse (fun _ => lazyAnyThen (fun cap r => k (c :: cap) r) cs)

/-- `(?:LIT[:：]?\s*)` as a required group. -/
def reqLitThen (lit : List Char) (k : List Char → Option α)
    (cs : List Char) : Option α :=
  if lit.isPrefixOf cs then colonOptThen (wsStarThen k) (cs.drop lit.length)
  else none

/-- `(?:LIT[:：]?\s*)?` as an optional (greedy) group. -/
def optLitThen (lit : List Char) (k : List Char → Option α)
    (cs : List Char) : Option α :=
  (reqLitThen lit k cs).orElse (fun _ => k cs)

/-- Lookahead `(?=\d+[\.、]|$)`. -/
def lookNumOrEnd (cs : List Char) : Bool :=
  (let ds := cs.takeWhile Char.isDigit
   !ds.isEmpty &&
     match cs.drop ds.length with
     | c :: _ => c = '.' ∨ c = '、'
     | [] => false) ||
  cs.isEmpty || cs = ['\n']

/-- Try the numbered-entry pattern at the current position, returning the
three captured fields and the remainder. -/
def tryNumberedAt (l : List Char) :
    Option ((List Char × List Char × List Char) × List Char) :=
  let ds := l.takeWhile Char.isDigit
  if ds.isEmpty then none
  else
    match l.drop ds.length with
    | [] => none
    | p :: cs1 =>
      if p = '.' ∨ p = '、' then
        wsStarThen (fun cs2 =>
          optLitThen "分镜".data (fun cs3 =>
            lazyAnyThen (fun g2 cs4 =>
              reqLitThen "口播".data (fun cs5 =>
                lazyAnyThen (fun g3 cs6 =>
                  reqLitThen "设计意图".data (fun cs7 =>
                    lazyAnyThen (fun g4 cs8 =>
                      if lookNumOrEnd cs8 then some ((g2, g3, g4), cs8)
                      else none) cs7) cs6) cs5) cs4) cs3) cs2) cs1
      else none

/-- Embedding of `_parse_numbered_format`. -/
def _parse_numbered_formatL (text : List Char) : Option ScriptOutput :=
  let ms := scanMatches tryNumberedAt text.length text
  if ms.isEmpty then none
  else
    let sb := ms.map (fun m => cleanL (pyStripL m.1))
    let vo := ms.map (fun m => cleanL (pyStripL m.2.1))
    let ds := ms.map (fun m => cleanL (pyStripL m.2.2))
    if sb.isEmpty then none
    else some ⟨sb.map (⟨·⟩), vo.map (⟨·⟩), ds.map (⟨·⟩), ⟨text⟩⟩

/-! ## The cascading parser `parse_script_output` -/

/-- One step of the strategy cascade: use the strategy's result if it parsed
and is valid, otherwise fall through. -/
def pickValid (r : Option ScriptOutput) (next : ScriptOutput) : ScriptOutput :=
  match r with
  | some x => if x.is_valid then x else next
  | none => next

/-- Embedding of `parse_script_output`: markdown table, then delimiter
lines, then tags, then numbered entries; otherwise the raw text with all
three columns empty. -/
def parse_script_output (raw_script : String) : ScriptOutput :=
  let output : ScriptOutput := ⟨[], [], [], raw_script⟩
  if (pyStripL raw_script.data).isEmpty then output
  else
    pickValid (_parse_markdown_tableL raw_script.data)
      (pickValid (_parse_delimiter_formatL raw_script.data)
        (pickValid (_parse_tag_formatL raw_script.data)
          (pickValid (_parse_numbered_formatL raw_script.data) output)))

example :
    parse_script_output "| 分镜 | 口播 | 设计意图 |\n|------|------|----------|\n| a | b | c |" =
      ⟨["a"], ["b"], ["c"],
        "| 分镜 | 口播 | 设计意图 |\n|------|------|----------|\n| a | b | c |"⟩ := by
  decide

example :
    parse_script_output "| a | b | c |\n| d | e | f |" =
      ⟨["a", "d"], ["b", "e"], ["c", "f"], "| a | b | c |\n| d | e | f |"⟩ := by
  decide

example :
    parse_script_output "x / y / z" = ⟨["x"], ["y"], ["z"], "x / y / z"⟩ := by
  decide

example :
    parse_script_output "[分镜] s1 [口播] v1 [设计意图] d1 [分镜] s2 [口播] v2 [设计意图] d2" =
      ⟨["s1", "s2"], ["v1", "v2"], ["d1", "d2"],
        "[分镜] s1 [口播] v1 [设计意图] d1 [分镜] s2 [口播] v2 [设计意图] d2"⟩ := by
  decide

example :
    parse_script_output "1. 分镜: a 口播: b 设计意图: c 2. 分镜: d 口播: e 设计意图: f" =
      ⟨["a", "d"], ["b", "e"], ["c", "f"],
        "1. 分镜: a 口播: b 设计意图: c 2. 分镜: d 口播: e 设计意图: f"⟩ := by
  decide

example :
    parse_script_output "1. 口播: hi 设计意图: x" =
      ⟨[""], ["hi"], ["x"], "1. 口播: hi 设计意图: x"⟩ := by
  decide

example :
    parse_script_output "garbage text" = ⟨[], [], [], "garbage text"⟩ := by
  decide

example : parse_script_output "   " = ⟨[], [], [], "   "⟩ := by decide

example :
    parse_script_output "|------|-----|----|\n| a | b | c |\n| d | e | f |" =
      ⟨["d"], ["e"], ["f"], "|------|-----|----|\n| a | b | c |\n| d | e | f |"⟩ := by
  decide

example :
    parse_script_output "header 分镜 stuff | three | cols |\n| a | b | c |" =
      ⟨["a"], ["b"], ["c"], "header 分镜 stuff | three | cols |\n| a | b | c |"⟩ := by
  decide

example :
    parse_script_output "a|b\nc/d/e/f" =
      ⟨["c"], ["d"], ["e"], "a|b\nc/d/e/f"⟩ := by
  decide

example :
    parse_script_output "1、分镜：甲 口播：乙 设计意图：丙" =
      ⟨["甲"], ["乙"], ["丙"], "1、分镜：甲 口播：乙 设计意图：丙"⟩ := by
  decide

example :
    parse_script_output "[分镜]: only scene [口播] v [设计意图]" =
      ⟨[], [], [], "[分镜]: only scene [口播] v [设计意图]"⟩ := by
  decide

example :
    parse_script_output "| 口播 | 分镜 | 设计意图 |\n|--|--|--|\n| v1 | s1 | d1 |" =
      ⟨["s1"], ["v1"], ["d1"],
        "| 口播 | 分镜 | 设计意图 |\n|--|--|--|\n| v1 | s1 | d1 |"⟩ := by
  decide

example :
    parse_script_output "|  | b | c | d |\n| x | y | z | w |\n| p | q | r | s |" =
      ⟨["b", "x", "p"], ["c", "y", "q"], ["d", "z", "r"],
        "|  | b | c | d |\n| x | y | z | w |\n| p | q | r | s |"⟩ := by
  decide

example : _clean_html_tags "a<br> <br>b" = "a； ；b" := by decide
example : _clean_html_tags "<<p>br>" = "" := by decide
example : _clean_html_tags "a<x><y>b" = "ab" := by decide
example : _clean_html_tags "<a<b>c>" = "c>" := by decide
example : _clean_html_tags " ； x ； " = "x" := by decide
example : _clean_html_tags "a； ；" = "a；" := by decide
example : _clean_html_tags "<br> <br>a" = "；a" := by decide
example : _clean_html_tags "<>x<br>y" = "<>x；y" := by decide
example : _clean_html_tags "1<2 and 3>4" = "14" := by decide
example : _clean_html_tags "<br  />" = "" := by decide
example : _clean_html_tags "</p >" = "" := by decide
example : _clean_html_tags "<div/>" = "" := by decide
example : _clean_html_tags "<span>x" = "x" := by decide
example : _clean_html_tags "a；；；b" = "a；b" := by decide
example : _clean_html_tags "；；；" = "" := by decide

/-! ## The RAG system (src/rag_system.py, FAISS mode)

Embeddings are modelled as integer vectors (the embedding values only
enter the logic through their dimension and through L2-distance
comparisons, for which any linearly ordered carrier is adequate); the embedding service itself is an
oracle: each add / search operation receives the embedding the service
would have produced, with `none` standing for an embedding failure
(exception), mirroring the source's try/except around every call.
The FAISS nearest-neighbour call `index.search` is likewise abstracted as
a selector producing raw index positions; `faissTopK` below instantiates
it with exact top-k by ascending squared L2 distance. -/

/-- Embedding of the ScriptMetadata dataclass. -/
structure ScriptMetadata where
  game_name : String
  performance : String
  source : String
  archived_at : String
deriving DecidableEq, Repr

/-- Embedding of the Script dataclass (one stored record). -/
structure Script where
  id : String
  content : String
  category : String
  metadata : ScriptMetadata
deriving DecidableEq, Repr

/-- Per-category FAISS state: the index dimension `.d`, the vectors held by
the IndexFlatL2 (in insertion order), and the parallel `_faiss_metadata`
list (stored dicts are reconstructed as equal Script values by search). -/
structure CatState where
  dim : Nat
  vectors : List (List Int)
  metadata : List Script
deriving DecidableEq, Repr

/-- The category-keyed dictionaries `_faiss_indices` / `_faiss_metadata`
(their key sets always coincide in the source). -/
abbrev CatMap := List (String × CatState)

def catFind (m : CatMap) (c : String) : Option CatState :=
  (m.find? (fun p => p.1 = c)).map (fun p => p.2)

def catSet : CatMap → String → CatState → CatMap
  | [], c, cs => [(c, cs)]
  | p :: ps, c, cs => if p.1 = c then (c, cs) :: ps else p :: catSet ps c cs

/-- Whole-system state: the vector store plus the per-record JSON file
store (one file per (category, id) path). -/
structure RagState where
  cats : CatMap
  files : List Script
deriving DecidableEq, Repr

/-- `RAGSystem._ensure_faiss_index`: recreate the index when absent or of a
different dimension; the metadata list is created only when absent (an
existing list is kept as is, even though the vectors are discarded). -/
def _ensure_faiss_index (m : CatMap) (c : String) (d : Nat) : CatMap :=
  match catFind m c with
  | some cs => if cs.dim ≠ d then catSet m c ⟨d, [], cs.metadata⟩ else m
  | none => catSet m c ⟨d, [], []⟩

/-- `RAGSystem._add_to_faiss`: with a successful embedding, ensure the
index fits its dimension, then append the vector and the metadata entry;
an embedding failure leaves the vector store untouched. -/
def _add_to_faiss (m : CatMap) (s : Script) (emb : Option (List Int)) : CatMap :=
  match emb with
  | none => m
  | some e =>
    let m1 := _ensure_faiss_index m s.category e.length
    match catFind m1 s.category with
    | some cs =>
      catSet m1 s.category ⟨cs.dim, cs.vectors ++ [e], cs.metadata ++ [s]⟩
    | none => m1

/-- `RAGSystem.add_script`: write the record file (keyed by category and
id, overwriting), then add to the vector store. The fresh uuid and the
embedding outcome are inputs here (they come from outside the logic). -/
def add_script (st : RagState) (content category : String)
    (meta : ScriptMetadata) (newId : String) (emb : Option (List Int)) :
    RagState :=
  let s : Script := ⟨newId, content, category, meta⟩
  ⟨_add_to_faiss st.cats s emb,
    (st.files.filter (fun f => !(f.category = category ∧ f.id = newId))) ++ [s]⟩

/-- `RAGSystem.delete_script`: locate the record file, drop entries with
that id from the category's metadata list (the FAISS vectors are not
compacted), and delete the file. -/
def delete_script (st : RagState) (id : String) : RagState :=
  match st.files.find? (fun f => f.id = id) with
  | none => st
  | some f =>
    let c := f.category
    let cats :=
      match catFind st.cats c with
      | some cs =>
        catSet st.cats c
          ⟨cs.dim, cs.vectors, cs.metadata.filter (fun m => !(m.id = id))⟩
      | none => st.cats
    ⟨cats, st.files.filter (fun g => !(g.category = c ∧ g.id = id))⟩

/-- `RAGSystem._search_faiss`: embed the query (failure degrades to no
results), return nothing for an absent category or empty index, otherwise
ask the index for `min top_k ntotal` positions and keep those that fall
inside the metadata list, reading the result records from it.  `sel`
abstracts `index.search`; a query whose dimension differs from the index
raises inside FAISS, caught as no results. -/
def _search_faiss (st : RagState)
    (sel : List (List Int) → List Int → Nat → List Int)
    (qemb : Option (List Int)) (category : String) (top_k : Nat) : List Script :=
  match catFind st.cats category with
  | none => []
  | some cs =>
    match qemb with
    | none => []
    | some q =>
      if cs.vectors.isEmpty then []
      else if q.length ≠ cs.dim then []
      else
        (sel cs.vectors q (min top_k cs.vectors.length)).filterMap
          (fun i => if 0 ≤ i then cs.metadata.get? i.toNat else none)

/-- `RAGSystem.get_scripts_by_category`: the record files of a category. -/
def get_scripts_by_category (st : RagState) (category : String) : List Script :=
  st.files.filter (fun f => f.category = category)

/-- The keyword score of `_simple_search`: the number of distinct
case-folded whitespace-split query terms occurring in the case-folded
record content. -/
def termScore (query content : String) : Nat :=
  ((splitWs (toLowerL query.data)).dedup).countP
    (fun t => occursIn t (toLowerL content.data))

/-- Stable insertion into a score-descending list (a later element goes
after earlier elements of equal score, as Python's stable sort does). -/
def insertDesc (x : Nat × Script) : List (Nat × Script) → List (Nat × Script)
  | [] => [x]
  | y :: ys => if x.1 ≤ y.1 then y :: insertDesc x ys else x :: y :: ys

def sortDescBy (l : List (Nat × Script)) : List (Nat × Script) :=
  l.foldl (fun acc x => insertDesc x acc) []

/-- `RAGSystem._simple_search`: score every record of the category, keep
positive scores, sort descending by score (stable) and take `top_k`. -/
def _simple_search (scripts : List Script) (query : String) (top_k : Nat) :
    List Script :=
  let scored := scripts.filterMap (fun s =>
    let sc := termScore query s.content
    if 0 < sc then some (sc, s) else none)
  ((sortDescBy scored).take top_k).map (fun p => p.2)

/-- `RAGSystem.search` in FAISS mode: vector search first; an empty result
(or any embedding failure) falls back to the keyword search over the
category's record files. -/
def rag_search (st : RagState)
    (sel : List (List Int) → List Int → Nat → List Int)
    (qemb : Option (List Int)) (query category : String) (top_k : Nat) :
    List Script :=
  let results := _search_faiss st sel qemb category top_k
  if results.isEmpty then
    _simple_search (get_scripts_by_category st category) query top_k
  else results

/-! ### An exact FAISS selector -/

/-- Squared L2 distance. -/
def sqDist (a b : List Int) : Int :=
  ((a.zip b).map (fun p => (p.1 - p.2) * (p.1 - p.2))).sum

def insertAscDist (x : Int × Nat) : List (Int × Nat) → List (Int × Nat)
  | [] => [x]
  | y :: ys => if y.1 ≤ x.1 then y :: insertAscDist x ys else x :: y :: ys

/-- The behaviour of IndexFlatL2.search for `k ≤ ntotal`: the k vector
positions of smallest squared L2 distance to the query, ties resolved
towards the smaller position. -/
def faissTopK (vectors : List (List Int)) (q : List Int) (k : Nat) : List Int :=
  let scored := (vectors.map (fun v => sqDist q v)).zip (List.range vectors.length)
  let sorted := scored.foldl (fun acc x => insertAscDist x acc) []
  (sorted.take k).map (fun p => (p.2 : Int))

/-! ### Operation sequences over the store -/

/-- The mutating operations a caller can run against the store, with the
outside-world outcomes (fresh id, embedding result) as data. -/
inductive RagOp where
  | add (content category : String) (meta : ScriptMetadata) (newId : String)
      (emb : Option (List Int))
  | delete (id : String)
deriving DecidableEq, Repr

def applyOp (st : RagState) : RagOp → RagState
  | .add content category meta newId emb =>
    add_script st content category meta newId emb
  | .delete id => delete_script st id

def applyOps (st : RagState) (ops : List RagOp) : RagState :=
  ops.foldl applyOp st

/-- The operation introduces a record with the given id. -/
def addsId (op : RagOp) (id : String) : Prop :=
  match op with
  | .add _ _ _ newId _ => newId = id
  | .delete _ => False

instance (op : RagOp) (id : String) : Decidable (addsId op id) := by
  cases op <;> simp [addsId] <;> infer_instance

/-! ## The generation workflow (ScriptGenerator.generate)

The external collaborators (RAG retrieval, RAG trait lookup, and the two
chat model endpoints together with the prompt construction feeding them)
are oracles; `generate` returns the streamed chunks in emission order, the
terminal ScriptOutput, and the trace of external calls made. -/

/-- Embedding of the GenerationInput dataclass. -/
structure GenerationInput where
  game_intro : String
  usp : String
  target_audience : String
  category : String
  theme : Option String
  gameplay : Option String
deriving DecidableEq, Repr

/-- GenerationInput.validate: every required field must be non-empty after
stripping (Python's falsiness test on the raw string is subsumed by the
emptiness of the stripped string). -/
def GenerationInput.validate (i : GenerationInput) : Bool × String :=
  if (pyStripL i.game_intro.data).isEmpty then (false, "游戏介绍不能为空")
  else if (pyStripL i.usp.data).isEmpty then (false, "USP（独特卖点）不能为空")
  else if (pyStripL i.target_audience.data).isEmpty then (false, "目标人群不能为空")
  else if (pyStripL i.category.data).isEmpty then (false, "游戏品类不能为空")
  else (true, "")

/-- The external services `generate` can call: the RAG search and trait
lookup, and the streamed chat completions (prompt building composed with
the endpoint call) for the draft, review and refine stages. -/
structure GenOracle where
  searchRefs : String → String → Nat → List Script
  traits : String → Option String → Option String → String
  draftStream : GenerationInput → String → List String
  reviewStream : GenerationInput → String → String → List String
  refineStream : GenerationInput → String → String → List String

/-- One observable external call of the workflow. -/
inductive GenCall where
  | ragSearch
  | ragTraits
  | genApi
  | revApi
deriving DecidableEq, Repr

/-- `ScriptGenerator._format_references`. -/
def _format_references (refs : List Script) : String :=
  if refs.isEmpty then "（暂无同品类参考脚本）"
  else
    ⟨joinLines ((List.range refs.length).map (fun i =>
      ("### 参考脚本 " ++ toString (i + 1) ++ "\n" ++
        ((refs.get? i).map (fun s => s.content)).getD "" ++ "\n").data))⟩

/-- String concatenation of streamed chunks. -/
def concatChunks (l : List String) : String := l.foldl (fun a b => a ++ b) ""

/-- Embedding of `ScriptGenerator.generate`: validate, then retrieve,
draft, review (chunks forwarded with a review marker) and refine, parsing
the refined text into the terminal ScriptOutput.  The result is the
streamed chunk list, the terminal value, and the external-call trace. -/
def generate (i : GenerationInput) (o : GenOracle) :
    List String × ScriptOutput × List GenCall :=
  let v := i.validate
  if !v.1 then
    (["[错误] " ++ v.2], ⟨[], [], [], "[错误] " ++ v.2⟩, [])
  else
    let query := i.game_intro ++ " " ++ i.usp ++ " " ++ i.target_audience
    let refs := o.searchRefs query i.category 3
    let refsText := _format_references refs
    let draft := o.draftStream i refsText
    let draftContent := concatChunks draft
    let traits := o.traits i.category i.theme i.gameplay
    let review := o.reviewStream i draftContent traits
    let reviewContent := concatChunks review
    let refine := o.refineStream i draftContent reviewContent
    let finalContent := concatChunks refine
    (["📚 正在检索同品类参考脚本...\n\n",
      "✅ 找到 " ++ toString refs.length ++ " 个参考脚本\n\n",
      "✍️ 正在生成脚本初稿...\n\n"] ++ draft ++
      ["\n\n", "🔍 正在评审脚本...\n\n"] ++
      review.map (fun c => "[REVIEW]" ++ c) ++
      ["\n\n", "🔧 正在根据评审意见修正脚本...\n\n"] ++ refine ++
      ["\n\n✅ 脚本生成完成！\n"],
     parse_script_output finalContent,
     [GenCall.ragSearch, GenCall.genApi, GenCall.ragTraits, GenCall.revApi,
       GenCall.genApi])

/-! ## Claim theorems -/

/-! ### Helper lemmas on the parser cascade -/

theorem pickValid_cases (r : Option ScriptOutput) (n : ScriptOutput) :
    (pickValid r n).is_valid = true ∨ pickValid r n = n := by
  cases r with
  | none => exact Or.inr rfl
  | some x =>
    by_cases h : x.is_valid = true
    · left; simp [pickValid, h]
    · right; simp [pickValid, h]

theorem pickValid_raw (r : Option ScriptOutput) (n : ScriptOutput) (s : String)
    (hr : ∀ x, r = some x → x.raw_content = s) (hn : n.raw_content = s) :
    (pickValid r n).raw_content = s := by
  cases r with
  | none => exact hn
  | some x =>
    by_cases h : x.is_valid = true
    · simpa [pickValid, h] using hr x rfl
    · simpa [pickValid, h] using hn

theorem mdFromTableLines_raw {t : List Char} {ls : List (List Char)}
    {r : ScriptOutput} (h : mdFromTableLines t ls = some r) :
    r.raw_content = ⟨t⟩ := by
  unfold mdFromTableLines at h
  split at h
  · split at h
    · exact absurd h (by simp)
    · dsimp only at h
      split at h
      · exact absurd h (by simp)
      · simp only [Option.some.injEq] at h
        subst h
        rfl
  · exact absurd h (by simp)

theorem markdown_raw {t : List Char} {r : ScriptOutput}
    (h : _parse_markdown_tableL t = some r) : r.raw_content = ⟨t⟩ :=
  mdFromTableLines_raw h

theorem delimiter_raw {t : List Char} {r : ScriptOutput}
    (h : _parse_delimiter_formatL t = some r) : r.raw_content = ⟨t⟩ := by
  unfold _parse_delimiter_formatL at h
  dsimp only at h
  split at h
  · exact absurd h (by simp)
  · simp only [Option.some.injEq] at h
    subst h
    rfl

theorem tag_raw {t : List Char} {r : ScriptOutput}
    (h : _parse_tag_formatL t = some r) : r.raw_content = ⟨t⟩ := by
  unfold _parse_tag_formatL at h
  dsimp only at h
  split at h
  · exact absurd h (by simp)
  · split at h
    · exact absurd h (by simp)
    · simp only [Option.some.injEq] at h
      subst h
      rfl

theorem numbered_raw {t : List Char} {r : ScriptOutput}
    (h : _parse_numbered_formatL t = some r) : r.raw_content = ⟨t⟩ := by
  unfold _parse_numbered_formatL at h
  dsimp only at h
  split at h
  · exact absurd h (by simp)
  · split at h
    · exact absurd h (by simp)
    · simp only [Option.some.injEq] at h
      subst h
      rfl

/-- C3: for every input string, `parse_script_output` returns either a valid
result (three non-empty, equal-length columns) or a result whose three
columns are all empty and whose raw text is the unparsed input; never
unequal non-empty columns, never a partially empty result. -/
theorem parse_script_output_valid_or_empty (s : String) :
    (parse_script_output s).is_valid = true ∨
      ((parse_script_output s).storyboard = [] ∧
        (parse_script_output s).voiceover = [] ∧
        (parse_script_output s).design_intent = [] ∧
        (parse_script_output s).raw_content = s) := by
  unfold parse_script_output
  split
  · exact Or.inr ⟨rfl, rfl, rfl, rfl⟩
  · rcases pickValid_cases (_parse_markdown_tableL s.data) _ with h1 | h1
    · exact Or.inl h1
    · rw [h1]
      rcases pickValid_cases (_parse_delimiter_formatL s.data) _ with h2 | h2
      · exact Or.inl h2
      · rw [h2]
        rcases pickValid_cases (_parse_tag_formatL s.data) _ with h3 | h3
        · exact Or.inl h3
        · rw [h3]
          rcases pickValid_cases (_parse_numbered_formatL s.data) _ with h4 | h4
          · exact Or.inl h4
          · rw [h4]
            exact Or.inr ⟨rfl, rfl, rfl, rfl⟩

/-- C9: whichever strategy succeeds (or none), the result of
`parse_script_output` carries the input string unchanged in its
raw_content field. -/
theorem parse_script_output_raw_content (s : String) :
    (parse_script_output s).raw_content = s := by
  unfold parse_script_output
  split
  · rfl
  · refine pickValid_raw _ _ _ (fun x hx => ?_) ?_
    · simpa using markdown_raw hx
    · refine pickValid_raw _ _ _ (fun x hx => ?_) ?_
      · simpa using delimiter_raw hx
      · refine pickValid_raw _ _ _ (fun x hx => ?_) ?_
        · simpa using tag_raw hx
        · refine pickValid_raw _ _ _ (fun x hx => ?_) ?_
          · simpa using numbered_raw hx
          · rfl

/-- C7: cell cleanup converts break tags to the '；' separator instead of
dropping them: the cell "A<br>B" cleans to "A；B", both directly and when
such a cell is extracted from a parsed Markdown table. -/
theorem clean_html_br_to_separator :
    _clean_html_tags "A<br>B" = "A；B" ∧
      parse_script_output
          "| 分镜 | 口播 | 设计意图 |\n|---|---|---|\n| A<br>B | x | y |" =
        ⟨["A；B"], ["x"], ["y"],
          "| 分镜 | 口播 | 设计意图 |\n|---|---|---|\n| A<br>B | x | y |"⟩ := by
  constructor
  · decide
  · decide

/-- C8: a generation request with an empty (or whitespace-only) required
field makes `generate` emit exactly one error chunk and return an invalid
output, with no external call: no retrieval and no model call happens. -/
theorem generate_invalid_input_no_calls (i : GenerationInput) (o : GenOracle)
    (h : i.validate.1 = false) :
    generate i o =
      (["[错误] " ++ i.validate.2], ⟨[], [], [], "[错误] " ++ i.validate.2⟩, []) ∧
      (generate i o).2.1.is_valid = false := by
  have hg : generate i o =
      (["[错误] " ++ i.validate.2], ⟨[], [], [], "[错误] " ++ i.validate.2⟩, []) := by
    unfold generate
    dsimp only
    rw [h]
    rfl
  refine ⟨hg, ?_⟩
  rw [hg]
  rfl

/-- A concrete do-nothing oracle used by witnesses. -/
def trivialOracle : GenOracle :=
  ⟨fun _ _ _ => [], fun _ _ _ => "", fun _ _ => [], fun _ _ _ => [],
    fun _ _ _ => []⟩

theorem generate_invalid_input_no_calls_witness :
    generate ⟨"", "fusion mechanic", "casual players", "SLG", none, none⟩
        trivialOracle =
      (["[错误] 游戏介绍不能为空"], ⟨[], [], [], "[错误] 游戏介绍不能为空"⟩, []) :=
  ((generate_invalid_input_no_calls
      ⟨"", "fusion mechanic", "casual players", "SLG", none, none⟩
      trivialOracle (by decide)).1).trans (by decide)

/-! ### Keyword fallback search (C4) -/

theorem mem_insertDesc {x y : Nat × Script} {l : List (Nat × Script)} :
    y ∈ insertDesc x l ↔ y = x ∨ y ∈ l := by
  induction l with
  | nil => simp [insertDesc]
  | cons z zs ih =>
    by_cases h : x.1 ≤ z.1
    · simp only [insertDesc, if_pos h, List.mem_cons, ih]
      tauto
    · simp only [insertDesc, if_neg h, List.mem_cons]

theorem length_insertDesc (x : Nat × Script) (l : List (Nat × Script)) :
    (insertDesc x l).length = l.length + 1 := by
  induction l with
  | nil => rfl
  | cons z zs ih =>
    by_cases h : x.1 ≤ z.1
    · simp [insertDesc, if_pos h, ih]
    · simp [insertDesc, if_neg h]

theorem pairwise_insertDesc {x : Nat × Script} {l : List (Nat × Script)}
    (hl : l.Pairwise (fun a b => b.1 ≤ a.1)) :
    (insertDesc x l).Pairwise (fun a b => b.1 ≤ a.1) := by
  induction l with
  | nil => simp [insertDesc]
  | cons z zs ih =>
    rcases List.pairwise_cons.mp hl with ⟨hz, hzs⟩
    by_cases h : x.1 ≤ z.1
    · rw [insertDesc, if_pos h]
      refine List.pairwise_cons.mpr ⟨?_, ih hzs⟩
      intro y hy
      rcases mem_insertDesc.mp hy with rfl | hy'
      · exact h
      · exact hz y hy'
    · rw [insertDesc, if_neg h]
      refine List.pairwise_cons.mpr ⟨?_, hl⟩
      intro y hy
      rcases List.mem_cons.mp hy with rfl | hy'
      · exact le_of_not_le h
      · exact le_trans (hz y hy') (le_of_not_le h)

theorem sortDescBy_facts (l : List (Nat × Script)) :
    (sortDescBy l).Pairwise (fun a b => b.1 ≤ a.1) ∧
      (∀ y ∈ sortDescBy l, y ∈ l) ∧ (sortDescBy l).length = l.length := by
  suffices h : ∀ acc : List (Nat × Script),
      acc.Pairwise (fun a b => b.1 ≤ a.1) →
      (l.foldl (fun a x => insertDesc x a) acc).Pairwise (fun a b => b.1 ≤ a.1) ∧
        (∀ y ∈ l.foldl (fun a x => insertDesc x a) acc, y ∈ acc ∨ y ∈ l) ∧
        (l.foldl (fun a x => insertDesc x a) acc).length =
          acc.length + l.length by
    obtain ⟨h1, h2, h3⟩ := h [] (by simp)
    refine ⟨h1, fun y hy => ?_, by simpa using h3⟩
    rcases h2 y hy with h' | h'
    · simp at h'
    · exact h'
  induction l with
  | nil => intro acc hacc; exact ⟨hacc, fun y hy => Or.inl hy, by simp⟩
  | cons x xs ih =>
    intro acc hacc
    obtain ⟨h1, h2, h3⟩ := ih (insertDesc x acc) (pairwise_insertDesc hacc)
    refine ⟨h1, fun y hy => ?_, ?_⟩
    · rcases h2 y hy with h' | h'
      · rcases mem_insertDesc.mp h' with rfl | h''
        · exact Or.inr (List.mem_cons_self _ _)
        · exact Or.inl h''
      · exact Or.inr (List.mem_cons_of_mem _ h')
    · simp only [List.foldl_cons, h3, length_insertDesc, List.length_cons]
      omega

theorem scored_mem {scripts : List Script} {query : String} {p : Nat × Script}
    (hp : p ∈ scripts.filterMap (fun s =>
      let sc := termScore query s.content
      if 0 < sc then some (sc, s) else none)) :
    p.2 ∈ scripts ∧ p.1 = termScore query p.2.content ∧
      0 < termScore query p.2.content := by
  rcases List.mem_filterMap.mp hp with ⟨s, hs, hsome⟩
  dsimp only at hsome
  split at hsome
  · rcases Option.some.injEq .. ▸ hsome with h
    cases h
    exact ⟨hs, rfl, by assumption⟩
  · cases hsome

theorem scored_length (scripts : List Script) (query : String) :
    (scripts.filterMap (fun s =>
      let sc := termScore query s.content
      if 0 < sc then some (sc, s) else none)).length =
      scripts.countP (fun s => 0 < termScore query s.content) := by
  induction scripts with
  | nil => rfl
  | cons s ss ih =>
    by_cases h : 0 < termScore query s.content
    · simp [List.filterMap_cons, List.countP_cons, h, ih]
    · simp [List.filterMap_cons, List.countP_cons, h, ih]

/-- C4: the keyword fallback scores each record by the number of distinct
case-folded whitespace-split query terms occurring in its content, keeps
only positive scores, orders descending by score and returns at most
top_k records; on ["strategy battle game", "casual puzzle game"] with
query "strategy" only the first record is returned. -/
theorem simple_search_spec :
    (∀ (scripts : List Script) (query : String) (k : Nat),
      (_simple_search scripts query k).length =
          min k (scripts.countP (fun s => 0 < termScore query s.content)) ∧
        (∀ r ∈ _simple_search scripts query k,
          r ∈ scripts ∧ 0 < termScore query r.content) ∧
        ((_simple_search scripts query k).map
            (fun r => termScore query r.content)).Pairwise
          (fun a b => b ≤ a)) ∧
      _simple_search
          [⟨"id1", "strategy battle game", "SLG", ⟨"", "", "", ""⟩⟩,
            ⟨"id2", "casual puzzle game", "SLG", ⟨"", "", "", ""⟩⟩]
          "strategy" 5 =
        [⟨"id1", "strategy battle game", "SLG", ⟨"", "", "", ""⟩⟩] := by
  constructor
  · intro scripts query k
    set scored := scripts.filterMap (fun s =>
      let sc := termScore query s.content
      if 0 < sc then some (sc, s) else none) with hscored
    obtain ⟨hpair, hmem, hlen⟩ := sortDescBy_facts scored
    have hresult : _simple_search scripts query k =
        ((sortDescBy scored).take k).map (fun p => p.2) := rfl
    refine ⟨?_, ?_, ?_⟩
    · rw [hresult, List.length_map, List.length_take, hlen,
        scored_length scripts query]
    · intro r hr
      rw [hresult] at hr
      rcases List.mem_map.mp hr with ⟨p, hp, rfl⟩
      have hp' : p ∈ sortDescBy scored := List.mem_of_mem_take hp
      obtain ⟨h1, _, h3⟩ := scored_mem (hmem p hp')
      exact ⟨h1, h3⟩
    · rw [hresult]
      have hmap : (((sortDescBy scored).take k).map (fun p => p.2)).map
          (fun r => termScore query r.content) =
          ((sortDescBy scored).take k).map (fun p => p.1) := by
        rw [List.map_map]
        refine List.map_congr_left (fun p hp => ?_)
        have hp' : p ∈ sortDescBy scored := List.mem_of_mem_take hp
        obtain ⟨_, h2, _⟩ := scored_mem (hmem p hp')
        exact h2.symm
      rw [hmap, List.pairwise_map]
      exact (hpair.sublist (List.take_sublist _ _))
  · decide

/-! ### The deletion invariant (C1) -/

theorem find?_catSet (m : CatMap) (c : String) (cs : CatState) (c' : String) :
    (catSet m c cs).find? (fun p => p.1 = c') =
      if c' = c then some (c, cs) else m.find? (fun p => p.1 = c') := by
  induction m with
  | nil =>
    by_cases h : c' = c
    · subst h
      simp [catSet, List.find?]
    · have hcc : ¬ c = c' := fun h' => h h'.symm
      simp [catSet, List.find?, h, hcc]
  | cons q qs ih =>
    by_cases hq : q.1 = c
    · simp only [catSet, if_pos hq]
      by_cases h : c' = c
      · subst h
        simp [List.find?]
      · have hcc : ¬ c = c' := fun h' => h h'.symm
        have hqc : ¬ q.1 = c' := fun h' => hcc (by rw [← hq, h'])
        rw [if_neg h, List.find?_cons_of_neg _ (by simpa using hcc),
          List.find?_cons_of_neg _ (by simpa using hqc)]
    · simp only [catSet, if_neg hq]
      by_cases hqc : q.1 = c'
      · have h : ¬ c' = c := fun h' => hq (hqc.trans h')
        rw [if_neg h, List.find?_cons_of_pos _ (by simpa using hqc),
          List.find?_cons_of_pos _ (by simpa using hqc)]
      · rw [List.find?_cons_of_neg _ (by simpa using hqc), ih]
        by_cases h : c' = c
        · rw [if_pos h, if_pos h]
        · rw [if_neg h, if_neg h,
            List.find?_cons_of_neg _ (by simpa using hqc)]

theorem catFind_catSet (m : CatMap) (c : String) (cs : CatState) (c' : String) :
    catFind (catSet m c cs) c' = if c' = c then some cs else catFind m c' := by
  unfold catFind
  rw [find?_catSet]
  by_cases h : c' = c
  · rw [if_pos h, if_pos h]
    rfl
  · rw [if_neg h, if_neg h]

theorem mem_catSet {p : String × CatState} {m : CatMap} {c : String}
    {cs : CatState} (h : p ∈ catSet m c cs) : p = (c, cs) ∨ p ∈ m := by
  induction m with
  | nil => simpa [catSet] using h
  | cons q qs ih =>
    by_cases hq : q.1 = c
    · rw [catSet, if_pos hq] at h
      rcases List.mem_cons.mp h with rfl | h'
      · exact Or.inl rfl
      · exact Or.inr (List.mem_cons_of_mem _ h')
    · rw [catSet, if_neg hq] at h
      rcases List.mem_cons.mp h with rfl | h'
      · exact Or.inr (List.mem_cons_self _ _)
      · rcases ih h' with h'' | h''
        · exact Or.inl h''
        · exact Or.inr (List.mem_cons_of_mem _ h'')

theorem mem_catSet_nodup {p : String × CatState} {m : CatMap} {c : String}
    {cs : CatState} (hnd : (m.map Prod.fst).Nodup) (h : p ∈ catSet m c cs) :
    p = (c, cs) ∨ (p ∈ m ∧ ¬ p.1 = c) := by
  induction m with
  | nil => exact Or.inl (by simpa [catSet] using h)
  | cons q qs ih =>
    simp only [List.map_cons, List.nodup_cons] at hnd
    by_cases hq : q.1 = c
    · rw [catSet, if_pos hq] at h
      rcases List.mem_cons.mp h with rfl | h'
      · exact Or.inl rfl
      · refine Or.inr ⟨List.mem_cons_of_mem _ h', fun hpc => ?_⟩
        exact hnd.1 (by
          have : p.1 ∈ qs.map Prod.fst := List.mem_map_of_mem _ h'
          rwa [hpc, ← hq] at this)
    · rw [catSet, if_neg hq] at h
      rcases List.mem_cons.mp h with rfl | h'
      · exact Or.inr ⟨List.mem_cons_self _ _, hq⟩
      · rcases ih hnd.2 h' with h'' | h''
        · exact Or.inl h''
        · exact Or.inr ⟨List.mem_cons_of_mem _ h''.1, h''.2⟩

theorem catFind_mem {m : CatMap} {c : String} {cs : CatState}
    (h : catFind m c = some cs) : ∃ p ∈ m, p.1 = c ∧ p.2 = cs := by
  unfold catFind at h
  rcases hfind : m.find? (fun p => p.1 = c) with _ | p
  · rw [hfind] at h; cases h
  · rw [hfind] at h
    refine ⟨p, List.mem_of_find?_eq_some hfind, ?_, by simpa using h⟩
    have := List.find?_some hfind
    simpa using this

/-- The record id is absent from every metadata list and from the file
store. -/
def idAbsent (st : RagState) (id : String) : Prop :=
  (∀ f ∈ st.files, ¬ f.id = id) ∧
    (∀ p ∈ st.cats, ∀ x ∈ p.2.metadata, ¬ x.id = id)

/-- Pre-deletion sanity: the record with this id lives only in category c,
in the file store as well as in the metadata lists. -/
def idOnlyInCat (st : RagState) (id c : String) : Prop :=
  (∀ f ∈ st.files, f.id = id → f.category = c) ∧
    (∀ p ∈ st.cats, ∀ x ∈ p.2.metadata, x.id = id → p.1 = c)

instance (st : RagState) (id c : String) : Decidable (idOnlyInCat st id c) := by
  unfold idOnlyInCat
  infer_instance

theorem ensure_metadata_sub {m : CatMap} {c : String} {d : Nat}
    {p : String × CatState} (hp : p ∈ _ensure_faiss_index m c d) :
    ∀ x ∈ p.2.metadata, ∃ q ∈ m, x ∈ q.2.metadata := by
  intro x hx
  unfold _ensure_faiss_index at hp
  split at hp
  next cs hfind =>
    split at hp
    · rcases mem_catSet hp with rfl | hp'
      · obtain ⟨q, hq, _, hq2⟩ := catFind_mem hfind
        exact ⟨q, hq, by simpa [hq2] using hx⟩
      · exact ⟨p, hp', hx⟩
    · exact ⟨p, hp, hx⟩
  next hfind =>
    rcases mem_catSet hp with rfl | hp'
    · cases hx
    · exact ⟨p, hp', hx⟩

theorem idAbsent_add {st : RagState} {id : String} (h : idAbsent st id)
    (content category : String) (meta : ScriptMetadata) {newId : String}
    (hnew : ¬ newId = id) (emb : Option (List Int)) :
    idAbsent (add_script st content category meta newId emb) id := by
  obtain ⟨hfiles, hcats⟩ := h
  constructor
  · intro f hf
    unfold add_script at hf
    rcases List.mem_append.mp hf with hf' | hf'
    · exact hfiles f (List.mem_of_mem_filter hf')
    · rcases List.mem_singleton.mp hf' with rfl
      exact hnew
  · intro p hp x hx
    unfold add_script _add_to_faiss at hp
    dsimp only at hp
    split at hp
    · exact hcats p hp x hx
    next e =>
      split at hp
      next cs hfind =>
        rcases mem_catSet hp with rfl | hp'
        · dsimp only at hx
          rcases List.mem_append.mp hx with hx' | hx'
          · obtain ⟨q, hq, _, hq2⟩ := catFind_mem hfind
            obtain ⟨q', hq', hxq'⟩ := ensure_metadata_sub hq x
              (by simpa [hq2] using hx')
            exact hcats q' hq' x hxq'
          · rcases List.mem_singleton.mp hx' with rfl
            exact hnew
        · obtain ⟨q, hq, hxq⟩ := ensure_metadata_sub hp' x hx
          exact hcats q hq x hxq
      next hfind =>
        obtain ⟨q, hq, hxq⟩ := ensure_metadata_sub hp x hx
        exact hcats q hq x hxq

theorem idAbsent_delete {st : RagState} {id : String} (h : idAbsent st id)
    (id' : String) : idAbsent (delete_script st id') id := by
  obtain ⟨hfiles, hcats⟩ := h
  unfold delete_script
  split
  · exact ⟨hfiles, hcats⟩
  next f hfind =>
    constructor
    · intro g hg
      dsimp only at hg
      exact hfiles g (List.mem_of_mem_filter hg)
    · intro p hp x hx
      dsimp only at hp
      split at hp
      next cs hcf =>
        rcases mem_catSet hp with rfl | hp'
        · obtain ⟨q, hq, _, hq2⟩ := catFind_mem hcf
          have hx' : x ∈ cs.metadata := List.mem_of_mem_filter hx
          exact hcats q hq x (by simpa [hq2] using hx')
        · exact hcats p hp' x hx
      next hcf =>
        exact hcats p hp x hx

theorem idAbsent_applyOp {st : RagState} {id : String} (h : idAbsent st id)
    {op : RagOp} (hop : ¬ addsId op id) : idAbsent (applyOp st op) id := by
  cases op with
  | add content category meta newId emb =>
    exact idAbsent_add h content category meta (by simpa [addsId] using hop) emb
  | delete id' => exact idAbsent_delete h id'

theorem idAbsent_applyOps {st : RagState} {id : String} (h : idAbsent st id)
    {ops : List RagOp} (hops : ∀ op ∈ ops, ¬ addsId op id) :
    idAbsent (applyOps st ops) id := by
  induction ops generalizing st with
  | nil => exact h
  | cons op ops ih =>
    exact ih (idAbsent_applyOp h (hops op (List.mem_cons_self _ _)))
      (fun o ho => hops o (List.mem_cons_of_mem _ ho))

theorem idAbsent_of_delete {st : RagState} {id c : String}
    (hnd : (st.cats.map Prod.fst).Nodup) (h : idOnlyInCat st id c)
    (hex : ∃ f ∈ st.files, f.id = id) : idAbsent (delete_script st id) id := by
  obtain ⟨h1, h2⟩ := h
  unfold delete_script
  split
  next hfind =>
    exfalso
    obtain ⟨f0, hf0, hf0id⟩ := hex
    have hsome : (st.files.find? (fun f => f.id = id)).isSome := by
      rw [List.find?_isSome]
      exact ⟨f0, hf0, by simpa using hf0id⟩
    rw [hfind] at hsome
    cases hsome
  next f hfind =>
    have hfid : f.id = id := by simpa using List.find?_some hfind
    have hfmem : f ∈ st.files := List.mem_of_find?_eq_some hfind
    have hfc : f.category = c := h1 f hfmem hfid
    refine ⟨?_, ?_⟩
    · intro g hg hgid
      dsimp only at hg
      have hmem := List.mem_filter.mp hg
      have hng : ¬ (g.category = f.category ∧ g.id = id) := by
        have h' := hmem.2
        rw [Bool.not_eq_true', decide_eq_false_iff_not] at h'
        exact h' 
      exact hng ⟨(h1 g hmem.1 hgid).trans hfc.symm, hgid⟩
    · intro p hp x hx hxid
      dsimp only at hp
      split at hp
      next cs hcf =>
        rcases mem_catSet_nodup hnd hp with rfl | ⟨hp', hpc⟩
        · have hmem := List.mem_filter.mp hx
          have hnx : ¬ x.id = id := by simpa using hmem.2
          exact hnx hxid
        · exact hpc ((h2 p hp' x hx hxid).trans hfc.symm)
      next hcf =>
        have hpc : p.1 = c := h2 p hp x hx hxid
        have hsome : (st.cats.find? (fun q => q.1 = f.category)).isSome := by
          rw [List.find?_isSome]
          exact ⟨p, hp, by simp [hpc, hfc]⟩
        rcases hff : st.cats.find? (fun q => q.1 = f.category) with _ | q
        · rw [hff] at hsome
          cases hsome
        · unfold catFind at hcf
          rw [hff] at hcf
          cases hcf

theorem mem_search_faiss {st : RagState}
    {sel : List (List Int) → List Int → Nat → List Int}
    {qemb : Option (List Int)} {category : String} {top_k : Nat} {r : Script}
    (h : r ∈ _search_faiss st sel qemb category top_k) :
    ∃ cs, catFind st.cats category = some cs ∧ r ∈ cs.metadata := by
  unfold _search_faiss at h
  split at h
  · cases h
  next cs hfind =>
    split at h
    · cases h
    next q =>
      split at h
      · cases h
      · split at h
        · cases h
        · rcases List.mem_filterMap.mp h with ⟨i, _, hsome⟩
          split at hsome
          · exact ⟨cs, hfind, List.get?_mem hsome⟩
          · cases hsome

theorem mem_simple_search {scripts : List Script} {query : String} {k : Nat}
    {r : Script} (h : r ∈ _simple_search scripts query k) : r ∈ scripts := by
  unfold _simple_search at h
  dsimp only at h
  rcases List.mem_map.mp h with ⟨p, hp, rfl⟩
  have hp' := List.mem_of_mem_take hp
  have hp'' := (sortDescBy_facts _).2.1 p hp'
  exact (scored_mem hp'').1

theorem mem_rag_search {st : RagState}
    {sel : List (List Int) → List Int → Nat → List Int}
    {qemb : Option (List Int)} {query category : String} {top_k : Nat}
    {r : Script} (h : r ∈ rag_search st sel qemb query category top_k) :
    (∃ cs, catFind st.cats category = some cs ∧ r ∈ cs.metadata) ∨
      r ∈ st.files := by
  unfold rag_search at h
  dsimp only at h
  split at h
  · right
    exact List.mem_of_mem_filter (mem_simple_search h)
  · left
    exact mem_search_faiss h

/-- C1: once `delete_script` has removed a record from its category's
metadata list, no later sequence of adds and deletes (none re-adding that
id) lets any search return the removed record — the FAISS vector of the
record stays in the index, but `_search_faiss` only ever surfaces records
read from the live metadata list (second conjunct), never raw index
positions by themselves, and the removed id is in no metadata list and in
no file. -/
theorem delete_script_never_resurfaced (st : RagState) (id c : String)
    (hnd : (st.cats.map Prod.fst).Nodup)
    (hone : idOnlyInCat st id c)
    (hex : ∃ f ∈ st.files, f.id = id)
    (ops : List RagOp) (hops : ∀ op ∈ ops, ¬ addsId op id) :
    (∀ sel qemb query category top_k r,
        r ∈ rag_search (applyOps (delete_script st id) ops) sel qemb query
            category top_k → ¬ r.id = id) ∧
      (∀ (st' : RagState) sel qemb category top_k r,
        r ∈ _search_faiss st' sel qemb category top_k →
          ∃ cs, catFind st'.cats category = some cs ∧ r ∈ cs.metadata) := by
  have habs : idAbsent (applyOps (delete_script st id) ops) id :=
    idAbsent_applyOps (idAbsent_of_delete hnd hone hex) hops
  constructor
  · intro sel qemb query category top_k r hr hrid
    rcases mem_rag_search hr with ⟨cs, hcf, hmem⟩ | hfile
    · obtain ⟨p, hp, _, hp2⟩ := catFind_mem hcf
      exact habs.2 p hp r (by rwa [hp2]) hrid
    · exact habs.1 r hfile hrid
  · intro st' sel qemb category top_k r hr
    exact mem_search_faiss hr

/-- A small concrete store used by the C1 witness: two records archived in
category SLG, both with one-dimensional embeddings. -/
def stAB : RagState :=
  applyOps ⟨[], []⟩
    [RagOp.add "strategy content" "SLG" ⟨"", "", "", ""⟩ "idA" (some [1]),
      RagOp.add "casual content" "SLG" ⟨"", "", "", ""⟩ "idB" (some [2])]

theorem delete_script_never_resurfaced_witness :
    ¬ (Script.mk "idB" "casual content" "SLG" ⟨"", "", "", ""⟩).id = "idA" :=
  (delete_script_never_resurfaced stAB "idA" "SLG" (by decide) (by decide)
      (by decide) [] (fun op h => absurd h (List.not_mem_nil op))).1
    faissTopK (some [1]) "strategy" "SLG" 2
    ⟨"idB", "casual content", "SLG", ⟨"", "", "", ""⟩⟩ (by decide)

/-- C2: adding a record at dimension 1 and then one at dimension 2 to the
same category recreates the index at dimension 2 but keeps the old
metadata list, so the parallel lists fall out of step and the next search
returns the dimension-1-era record A (the claim expects only D2-era
records).  The final state and the search outcome are evaluated exactly. -/
theorem dimension_change_search_returns_d1_record :
    catFind
        (applyOps ⟨[], []⟩
          [RagOp.add "contentA" "C" ⟨"", "", "", ""⟩ "idA" (some [1]),
            RagOp.add "contentB" "C" ⟨"", "", "", ""⟩ "idB"
              (some [1, 2])]).cats "C" =
      some ⟨2, [[1, 2]], [⟨"idA", "contentA", "C", ⟨"", "", "", ""⟩⟩,
        ⟨"idB", "contentB", "C", ⟨"", "", "", ""⟩⟩]⟩ ∧
    _search_faiss
        (applyOps ⟨[], []⟩
          [RagOp.add "contentA" "C" ⟨"", "", "", ""⟩ "idA" (some [1]),
            RagOp.add "contentB" "C" ⟨"", "", "", ""⟩ "idB"
              (some [1, 2])])
        faissTopK (some [0, 0]) "C" 1 =
      [⟨"idA", "contentA", "C", ⟨"", "", "", ""⟩⟩] := by
  constructor
  · decide
  · decide

/-! ### Well-formed table cells and round-trip machinery (C5, C6) -/

/-- The head character exists and is not whitespace. -/
def headNotSpaceB : List Char → Bool
  | [] => false
  | c :: _ => !pyIsSpace c

/-- A well-formed table cell: non-empty, no edge whitespace, free of the
column separator, markup and the characters the parser treats specially,
and containing at least one character that keeps its row from looking
like a Markdown separator row. -/
def wfCellB (l : List Char) : Bool :=
  headNotSpaceB l && headNotSpaceB l.reverse &&
    l.all (fun c => !(c = '|' || c = '<' || c = '；' || c = '\n')) &&
    l.any (fun c => !(c = '|' || c = '-' || c = ':' || pyIsSpace c))

def wfCell (s : String) : Bool := wfCellB s.data

theorem wfCellB_ne_nil {l : List Char} (h : wfCellB l = true) : l ≠ [] := by
  intro rfl'
  subst rfl'
  simp [wfCellB, headNotSpaceB] at h

theorem wfCellB_head {l : List Char} (h : wfCellB l = true) :
    headNotSpaceB l = true := by
  simp only [wfCellB, Bool.and_eq_true] at h
  exact h.1.1.1

theorem wfCellB_last {l : List Char} (h : wfCellB l = true) :
    headNotSpaceB l.reverse = true := by
  simp only [wfCellB, Bool.and_eq_true] at h
  exact h.1.1.2

theorem wfCellB_not_mem {l : List Char} (h : wfCellB l = true) :
    '|' ∉ l ∧ '<' ∉ l ∧ '；' ∉ l ∧ '\n' ∉ l := by
  simp only [wfCellB, Bool.and_eq_true, List.all_eq_true] at h
  have hall := h.1.2
  refine ⟨fun hm => ?_, fun hm => ?_, fun hm => ?_, fun hm => ?_⟩ <;>
    simpa using hall _ hm

theorem wfCellB_non_sep {l : List Char} (h : wfCellB l = true) :
    ∃ c ∈ l, (c = '|' || c = '-' || c = ':' || pyIsSpace c) = false := by
  simp only [wfCellB, Bool.and_eq_true, List.any_eq_true] at h
  obtain ⟨c, hc, hc'⟩ := h.2
  exact ⟨c, hc, by simpa using hc'⟩

theorem dropWhile_eq_self_of_head {l : List Char}
    (h : headNotSpaceB l = true) : l.dropWhile pyIsSpace = l := by
  cases l with
  | nil => rfl
  | cons c cs =>
    simp only [headNotSpaceB, Bool.not_eq_true'] at h
    simp [List.dropWhile_cons, h]

theorem pyStripL_eq_self {l : List Char} (h1 : headNotSpaceB l = true)
    (h2 : headNotSpaceB l.reverse = true) : pyStripL l = l := by
  unfold pyStripL
  rw [dropWhile_eq_self_of_head h1, dropWhile_eq_self_of_head h2,
    List.reverse_reverse]

theorem dropWhile_cons_of_pos {c : Char} {cs : List Char}
    (h : pyIsSpace c = true) :
    (c :: cs).dropWhile pyIsSpace = cs.dropWhile pyIsSpace := by
  simp [List.dropWhile_cons, h]

/-- Stripping a cell padded with one space on each side recovers the cell. -/
theorem pyStripL_pad {a : List Char} (hw : wfCellB a = true) :
    pyStripL (' ' :: (a ++ [' '])) = a := by
  have h1 := wfCellB_head hw
  have h2 := wfCellB_last hw
  unfold pyStripL
  rw [dropWhile_cons_of_pos (by decide)]
  have hne := wfCellB_ne_nil hw
  cases ha : a with
  | nil => exact absurd ha hne
  | cons c cs =>
    rw [ha] at h1 h2
    have hstep1 : List.dropWhile pyIsSpace (c :: (cs ++ [' '])) =
        c :: (cs ++ [' ']) := by
      simp only [headNotSpaceB, Bool.not_eq_true'] at h1
      simp [List.dropWhile_cons, h1]
    rw [show (c :: cs ++ [' ']) = c :: (cs ++ [' ']) from rfl, hstep1]
    have hrev : (c :: (cs ++ [' '])).reverse = ' ' :: (c :: cs).reverse := by
      simp
    rw [hrev, dropWhile_cons_of_pos (by decide), dropWhile_eq_self_of_head h2,
      List.reverse_reverse]

/-! #### The cleanup is the identity on well-formed cells -/

theorem tryBr_head {l r : List Char} (h : tryBr l = some r) :
    l.head? = some '<' := by
  unfold tryBr at h
  split at h
  · rfl
  · cases h

theorem tryTagNamed_head {name l r : List Char}
    (h : tryTagNamed name l = some r) : l.head? = some '<' := by
  unfold tryTagNamed at h
  split at h
  · rfl
  · cases h

theorem trySpan_head {l r : List Char} (h : trySpan l = some r) :
    l.head? = some '<' := by
  unfold trySpan at h
  split at h
  · rfl
  · cases h

theorem tryAny_head {l r : List Char} (h : tryAny l = some r) :
    l.head? = some '<' := by
  unfold tryAny at h
  split at h
  · rfl
  · cases h

theorem subRepAux_no_lt {m : List Char → Option (List Char)}
    {rep : List Char}
    (hm : ∀ l r, m l = some r → l.head? = some '<') :
    ∀ (fuel : Nat) (l : List Char), '<' ∉ l → subRepAux m rep fuel l = l := by
  intro fuel
  induction fuel with
  | zero => intro l _; rfl
  | succ fuel ih =>
    intro l hl
    cases l with
    | nil => rfl
    | cons c cs =>
      rw [subRepAux]
      rcases hmc : m (c :: cs) with _ | rest
      · rw [ih cs (fun hm' => hl (List.mem_cons_of_mem _ hm'))]
      · have := hm _ _ hmc
        simp only [List.head?_cons, Option.some.injEq] at this
        exact absurd (this ▸ List.mem_cons_self c cs) hl

theorem subRep_no_lt {m : List Char → Option (List Char)} {rep : List Char}
    (hm : ∀ l r, m l = some r → l.head? = some '<') {l : List Char}
    (hl : '<' ∉ l) : subRep m rep l = l :=
  subRepAux_no_lt hm l.length l hl

theorem collapseSemi_no_semi {l : List Char} (h : '；' ∉ l) :
    collapseSemi l = l := by
  induction l with
  | nil => rfl
  | cons a t ih =>
    cases t with
    | nil => rfl
    | cons b t' =>
      have ha : ¬ a = '；' := fun h' => h (h' ▸ List.mem_cons_self _ _)
      rw [collapseSemi, if_neg (fun hc => ha hc.1),
        ih (fun hm => h (List.mem_cons_of_mem _ hm))]

theorem leadSemiStrip_no_semi {l : List Char} (h : '；' ∉ l) :
    leadSemiStrip l = l := by
  unfold leadSemiStrip
  split
  next r heq =>
    exact absurd ((List.dropWhile_sublist pyIsSpace).mem
      (heq ▸ List.mem_cons_self '；' r)) h
  next => rfl

theorem trailSemiStrip_no_semi {l : List Char} (h : '；' ∉ l) :
    trailSemiStrip l = l := by
  unfold trailSemiStrip
  split
  next r heq =>
    have : '；' ∈ l.reverse :=
      (List.dropWhile_sublist pyIsSpace).mem (heq ▸ List.mem_cons_self '；' r)
    exact absurd (List.mem_reverse.mp this) h
  next => rfl

/-- On a well-formed cell the whole cleanup pipeline is the identity. -/
theorem cleanL_eq_self {l : List Char} (hw : wfCellB l = true) :
    cleanL l = l := by
  obtain ⟨_, hlt, hsemi, _⟩ := wfCellB_not_mem hw
  unfold cleanL
  rw [subRep_no_lt (fun _ _ h => tryBr_head h) hlt,
    subRep_no_lt (fun _ _ h => tryTagNamed_head h) hlt,
    subRep_no_lt (fun _ _ h => tryTagNamed_head h) hlt,
    subRep_no_lt (fun _ _ h => trySpan_head h) hlt,
    subRep_no_lt (fun _ _ h => tryAny_head h) hlt,
    collapseSemi_no_semi hsemi, leadSemiStrip_no_semi hsemi,
    trailSemiStrip_no_semi hsemi,
    pyStripL_eq_self (wfCellB_head hw) (wfCellB_last hw)]

/-! #### Splitting rendered rows -/

theorem splitOnChar_not_mem {sep : Char} {l : List Char} (h : sep ∉ l) :
    splitOnChar sep l = [l] := by
  induction l with
  | nil => rfl
  | cons c cs ih =>
    have hc : ¬ c = sep := fun h' => h (by rw [h']; exact List.mem_cons_self _ _)
    simp only [splitOnChar, if_neg hc,
      ih (fun hm => h (List.mem_cons_of_mem _ hm))]

theorem splitOnChar_sep_cons (sep : Char) (rest : List Char) :
    splitOnChar sep (sep :: rest) = [] :: splitOnChar sep rest := by
  simp [splitOnChar]

theorem splitOnChar_append {sep : Char} {l rest : List Char} (h : sep ∉ l) :
    splitOnChar sep (l ++ sep :: rest) = l :: splitOnChar sep rest := by
  induction l with
  | nil => simp [splitOnChar]
  | cons c cs ih =>
    have hc : ¬ c = sep := fun h' => h (by rw [h']; exact List.mem_cons_self _ _)
    rw [List.cons_append]
    simp only [splitOnChar, if_neg hc]
    rw [ih (fun hm => h (List.mem_cons_of_mem _ hm))]

/-- The rendered row in explicit segment form. -/
theorem mdRowL_eq (a b c : List Char) :
    mdRowL a b c =
      '|' :: ((' ' :: (a ++ [' '])) ++ '|' ::
        ((' ' :: (b ++ [' '])) ++ '|' :: ((' ' :: (c ++ [' '])) ++ ['|']))) := by
  show ['|', ' '] ++ a ++ [' ', '|', ' '] ++ b ++ [' ', '|', ' '] ++ c ++
      [' ', '|'] = _
  simp [List.append_assoc]

theorem not_mem_pad {x : Char} {a : List Char} (hx : ¬ x = ' ')
    (ha : x ∉ a) : x ∉ ' ' :: (a ++ [' ']) := by
  intro hm
  rcases List.mem_cons.mp hm with h | h
  · exact hx h
  · rcases List.mem_append.mp h with h' | h'
    · exact ha h'
    · exact hx (List.mem_singleton.mp h')

theorem splitOnChar_mdRowL {a b c : List Char} (ha : '|' ∉ a) (hb : '|' ∉ b)
    (hc : '|' ∉ c) :
    splitOnChar '|' (mdRowL a b c) =
      [[], ' ' :: (a ++ [' ']), ' ' :: (b ++ [' ']), ' ' :: (c ++ [' ']), []] := by
  rw [mdRowL_eq, splitOnChar_sep_cons,
    splitOnChar_append (not_mem_pad (by decide) ha),
    splitOnChar_append (not_mem_pad (by decide) hb),
    splitOnChar_append (not_mem_pad (by decide) hc)]
  rfl

theorem isEmpty_false_of_wf {a : List Char} (ha : wfCellB a = true) :
    a.isEmpty = false := by
  cases hA : a.isEmpty
  · rfl
  · exact absurd (List.isEmpty_iff.mp hA) (wfCellB_ne_nil ha)

theorem rowCells_mdRowL {a b c : List Char} (ha : wfCellB a = true)
    (hb : wfCellB b = true) (hc : wfCellB c = true) :
    rowCells (mdRowL a b c) = [a, b, c] := by
  unfold rowCells
  rw [splitOnChar_mdRowL (wfCellB_not_mem ha).1 (wfCellB_not_mem hb).1
    (wfCellB_not_mem hc).1]
  simp only [List.map_cons, List.map_nil, pyStripL_pad ha, pyStripL_pad hb,
    pyStripL_pad hc]
  have hstrip : pyStripL ([] : List Char) = [] := rfl
  rw [hstrip]
  simp [List.filter_cons, isEmpty_false_of_wf ha, isEmpty_false_of_wf hb,
    isEmpty_false_of_wf hc]

/-! #### Shape facts about rendered rows -/

theorem headNotSpaceB_mdRowL (a b c : List Char) :
    headNotSpaceB (mdRowL a b c) = true := by
  rw [mdRowL_eq]
  rfl

theorem mdRowL_concat (a b c : List Char) :
    mdRowL a b c =
      ('|' :: ((' ' :: (a ++ [' '])) ++ '|' ::
        ((' ' :: (b ++ [' '])) ++ '|' :: (' ' :: (c ++ [' ']))))) ++ ['|'] := by
  rw [mdRowL_eq]
  simp [List.append_assoc]

theorem lastNotSpaceB_mdRowL (a b c : List Char) :
    headNotSpaceB (mdRowL a b c).reverse = true := by
  rw [mdRowL_concat]
  simp [headNotSpaceB]
  decide

theorem pyStripL_mdRowL (a b c : List Char) :
    pyStripL (mdRowL a b c) = mdRowL a b c :=
  pyStripL_eq_self (headNotSpaceB_mdRowL a b c) (lastNotSpaceB_mdRowL a b c)

theorem bar_mem_mdRowL (a b c : List Char) :
    (mdRowL a b c).any (fun ch => ch = '|') = true := by
  rw [mdRowL_eq]
  simp

theorem mem_mdRowL {x : Char} {a b c : List Char} (h : x ∈ mdRowL a b c) :
    x ∈ a ∨ x ∈ b ∨ x ∈ c ∨ x = '|' ∨ x = ' ' := by
  rw [mdRowL_eq] at h
  simp only [List.mem_cons, List.mem_append, List.mem_singleton] at h
  tauto

theorem nl_not_mem_mdRowL {a b c : List Char} (ha : '\n' ∉ a) (hb : '\n' ∉ b)
    (hc : '\n' ∉ c) : '\n' ∉ mdRowL a b c := by
  intro hm
  rcases mem_mdRowL hm with h | h | h | h | h
  · exact ha h
  · exact hb h
  · exact hc h
  · exact absurd h (by decide)
  · exact absurd h (by decide)

theorem isSepRow_mdRowL {a b c : List Char} (ha : wfCellB a = true) :
    isSepRow (mdRowL a b c) = false := by
  obtain ⟨ch, hch, hch'⟩ := wfCellB_non_sep ha
  have hmem : ch ∈ mdRowL a b c := by
    rw [mdRowL_eq]
    exact List.mem_cons_of_mem _ (List.mem_append_left _
      (List.mem_cons_of_mem _ (List.mem_append_left _ hch)))
  unfold isSepRow
  rcases hall : (mdRowL a b c).all
      (fun x => x = '|' ∨ x = '-' ∨ x = ':' ∨ pyIsSpace x) with _ | _
  · simp
  · exfalso
    have hd := List.all_eq_true.mp hall ch hmem
    simp only [decide_eq_true_eq] at hd
    rcases hd with h | h | h | h
    · rw [h] at hch'
      simp at hch'
    · rw [h] at hch'
      simp at hch'
    · rw [h] at hch'
      simp at hch'
    · rw [h] at hch'
      simp at hch'

/-! #### Joining and re-splitting lines -/

theorem splitLines_joinLines {ls : List (List Char)} (hne : ls ≠ [])
    (h : ∀ l ∈ ls, '\n' ∉ l) : splitLines (joinLines ls) = ls := by
  induction ls with
  | nil => exact absurd rfl hne
  | cons l ls ih =>
    cases ls with
    | nil => exact splitOnChar_not_mem (h l (List.mem_cons_self _ _))
    | cons l' ls' =>
      show splitOnChar '\n' (joinLines (l :: l' :: ls')) = _
      rw [joinLines, splitOnChar_append (h l (List.mem_cons_self _ _))]
      rw [show splitOnChar '\n' (joinLines (l' :: ls')) = l' :: ls' from
        ih (by simp) (fun x hx => h x (List.mem_cons_of_mem _ hx))]

theorem joinLines_ne_nil {l : List Char} {ls : List (List Char)}
    (hl : l ≠ []) : joinLines (l :: ls) ≠ [] := by
  cases ls with
  | nil => exact hl
  | cons l' ls' =>
    rw [joinLines]
    cases l with
    | nil => exact absurd rfl hl
    | cons c cs => simp

theorem headNotSpaceB_append {l r : List Char} (hl : l ≠ []) :
    headNotSpaceB (l ++ r) = headNotSpaceB l := by
  cases l with
  | nil => exact absurd rfl hl
  | cons c cs => rfl

theorem headNotSpaceB_joinLines {l : List Char} {ls : List (List Char)}
    (hl : headNotSpaceB l = true) :
    headNotSpaceB (joinLines (l :: ls)) = true := by
  cases ls with
  | nil => exact hl
  | cons l' ls' =>
    rw [joinLines]
    cases l with
    | nil => cases hl
    | cons c cs => exact hl

theorem lastNotSpaceB_joinLines {ls : List (List Char)} (hne : ls ≠ [])
    (hnil : ∀ l ∈ ls, l ≠ [])
    (h : ∀ l ∈ ls, headNotSpaceB l.reverse = true) :
    headNotSpaceB (joinLines ls).reverse = true := by
  induction ls with
  | nil => exact absurd rfl hne
  | cons l ls ih =>
    cases ls with
    | nil => exact h l (List.mem_cons_self _ _)
    | cons l' ls' =>
      rw [joinLines]
      have hJ : joinLines (l' :: ls') ≠ [] :=
        joinLines_ne_nil (hnil l' (List.mem_cons_of_mem _ (List.mem_cons_self _ _)))
      have hrev : (l ++ '\n' :: joinLines (l' :: ls')).reverse =
          ((joinLines (l' :: ls')).reverse ++ ['\n']) ++ l.reverse := by
        simp
      rw [hrev, headNotSpaceB_append (by
        intro hcontra
        have := List.append_eq_nil.mp hcontra
        exact absurd (List.reverse_eq_nil_iff.mp (this.1)) hJ),
        headNotSpaceB_append (by
          intro hcontra
          exact absurd (List.reverse_eq_nil_iff.mp hcontra) hJ)]
      exact ih (by simp) (fun x hx => hnil x (List.mem_cons_of_mem _ hx))
        (fun x hx => h x (List.mem_cons_of_mem _ hx))

/-! #### The table-line collection on rendered input -/

theorem collect_cons_keep {inT : Bool} {l : List Char} {ls : List (List Char)}
    (hbar : (pyStripL l).any (fun c => c = '|') = true)
    (hsep : isSepRow (pyStripL l) = false)
    (hhd : (inT || _is_table_header (pyStripL l)) = true) :
    collectTableLines inT (l :: ls) = pyStripL l :: collectTableLines true ls := by
  simp only [collectTableLines, hbar, hsep, hhd]
  simp

theorem collect_cons_sep {inT : Bool} {l : List Char} {ls : List (List Char)}
    (hbar : (pyStripL l).any (fun c => c = '|') = true)
    (hsep : isSepRow (pyStripL l) = true) :
    collectTableLines inT (l :: ls) = collectTableLines true ls := by
  simp only [collectTableLines, hbar, hsep]
  simp

theorem collect_cons_skip {l : List Char} {ls : List (List Char)}
    (hsep : isSepRow (pyStripL l) = false)
    (hhd : _is_table_header (pyStripL l) = false) :
    collectTableLines false (l :: ls) = collectTableLines false ls := by
  rcases hbar : (pyStripL l).any (fun c => c = '|') with _ | _
  · simp only [collectTableLines, hbar]
    simp
  · simp only [collectTableLines, hbar, hsep, hhd]
    simp

theorem collect_false_nil {lines : List (List Char)}
    (h : ∀ l ∈ lines, isSepRow (pyStripL l) = false ∧
      _is_table_header (pyStripL l) = false) :
    collectTableLines false lines = [] := by
  induction lines with
  | nil => rfl
  | cons l ls ih =>
    rw [collect_cons_skip (h l (List.mem_cons_self _ _)).1
      (h l (List.mem_cons_self _ _)).2]
    exact ih (fun x hx => h x (List.mem_cons_of_mem _ hx))

theorem collect_true_map {lines : List (List Char)}
    (h : ∀ l ∈ lines, (pyStripL l).any (fun c => c = '|') = true ∧
      isSepRow (pyStripL l) = false) :
    collectTableLines true lines = lines.map pyStripL := by
  induction lines with
  | nil => rfl
  | cons l ls ih =>
    rw [collect_cons_keep (h l (List.mem_cons_self _ _)).1
      (h l (List.mem_cons_self _ _)).2 (by simp)]
    rw [ih (fun x hx => h x (List.mem_cons_of_mem _ hx))]
    rfl

/-! #### Parsing a rendered table -/

/-- One rendered data row of cell triple t. -/
def renderRowS (t : String × String × String) : List Char :=
  mdRowL t.1.data t.2.1.data t.2.2.data

/-- All three cells of the triple are well formed. -/
def wfTriple (t : String × String × String) : Bool :=
  wfCell t.1 && wfCell t.2.1 && wfCell t.2.2

theorem wfTriple_parts {t : String × String × String}
    (h : wfTriple t = true) :
    wfCellB t.1.data = true ∧ wfCellB t.2.1.data = true ∧
      wfCellB t.2.2.data = true := by
  simp only [wfTriple, wfCell, Bool.and_eq_true] at h
  exact ⟨h.1.1, h.1.2, h.2⟩

theorem isEmpty_false_of_ne_nil {α : Type _} {l : List α} (h : l ≠ []) :
    l.isEmpty = false := by
  cases l with
  | nil => exact absurd rfl h
  | cons x xs => rfl

theorem mdRowL_ne_nil (a b c : List Char) : mdRowL a b c ≠ [] := by
  rw [mdRowL_eq]
  simp

theorem renderRows_strip {T : List (String × String × String)} (hne : T ≠ [])
    (hwf : ∀ t ∈ T, wfTriple t = true) :
    pyStripL (joinLines (T.map renderRowS)) = joinLines (T.map renderRowS) := by
  cases T with
  | nil => exact absurd rfl hne
  | cons t T' =>
    refine pyStripL_eq_self ?_ ?_
    · exact headNotSpaceB_joinLines (headNotSpaceB_mdRowL _ _ _)
    · refine lastNotSpaceB_joinLines (by simp) ?_ ?_
      · intro l hl
        rcases List.mem_map.mp hl with ⟨u, _, rfl⟩
        exact mdRowL_ne_nil _ _ _
      · intro l hl
        rcases List.mem_map.mp hl with ⟨u, _, rfl⟩
        exact lastNotSpaceB_mdRowL _ _ _

theorem renderRows_nl {T : List (String × String × String)}
    (hwf : ∀ t ∈ T, wfTriple t = true) :
    ∀ l ∈ T.map renderRowS, '\n' ∉ l := by
  intro l hl
  rcases List.mem_map.mp hl with ⟨u, hu, rfl⟩
  obtain ⟨h1, h2, h3⟩ := wfTriple_parts (hwf u hu)
  exact nl_not_mem_mdRowL (wfCellB_not_mem h1).2.2.2 (wfCellB_not_mem h2).2.2.2
    (wfCellB_not_mem h3).2.2.2

theorem filterMap_eq_map_of {α β : Type _} {f : α → Option β} {g : α → β}
    {l : List α} (h : ∀ x ∈ l, f x = some (g x)) : l.filterMap f = l.map g :=
  (List.filterMap_eq_map_iff_forall_eq_some).mpr h

theorem delimLine_rendered {t : String × String × String}
    (hwf : wfTriple t = true)
    (hnh : _is_table_header (renderRowS t) = false) :
    delimLine (renderRowS t) = some (t.1.data, t.2.1.data, t.2.2.data) := by
  obtain ⟨h1, h2, h3⟩ := wfTriple_parts hwf
  simp only [renderRowS] at hnh ⊢
  unfold delimLine
  dsimp only
  rw [pyStripL_mdRowL]
  simp [isEmpty_false_of_ne_nil (mdRowL_ne_nil t.1.data t.2.1.data t.2.2.data),
    hnh, bar_mem_mdRowL, rowCells_mdRowL h1 h2 h3, cleanL_eq_self h1,
    cleanL_eq_self h2, cleanL_eq_self h3]

theorem delimiter_rendered {T : List (String × String × String)} (hne : T ≠ [])
    (hwf : ∀ t ∈ T, wfTriple t = true)
    (hnh : ∀ t ∈ T, _is_table_header (renderRowS t) = false) :
    _parse_delimiter_formatL (joinLines (T.map renderRowS)) =
      some ⟨T.map (fun t => t.1), T.map (fun t => t.2.1),
        T.map (fun t => t.2.2), ⟨joinLines (T.map renderRowS)⟩⟩ := by
  have hmapne : T.map renderRowS ≠ [] := by simpa using hne
  have hfun : ∀ x ∈ T, (delimLine ∘ renderRowS) x =
      some ((fun u : String × String × String =>
        (u.1.data, u.2.1.data, u.2.2.data)) x) := by
    intro x hx
    dsimp only [Function.comp]
    exact delimLine_rendered (hwf x hx) (hnh x hx)
  unfold _parse_delimiter_formatL
  dsimp only
  rw [renderRows_strip hne hwf, splitLines_joinLines hmapne (renderRows_nl hwf),
    List.filterMap_map, filterMap_eq_map_of hfun,
    isEmpty_false_of_ne_nil (by simpa using hne)]
  simp only [Bool.false_eq_true, if_false, List.map_map]
  rfl

theorem markdown_rendered_none {T : List (String × String × String)}
    (hne : T ≠ []) (hwf : ∀ t ∈ T, wfTriple t = true)
    (hnh : ∀ t ∈ T, _is_table_header (renderRowS t) = false) :
    _parse_markdown_tableL (joinLines (T.map renderRowS)) = none := by
  have hmapne : T.map renderRowS ≠ [] := by simpa using hne
  have hcol : collectTableLines false (T.map renderRowS) = [] := by
    refine collect_false_nil (fun l hl => ?_)
    rcases List.mem_map.mp hl with ⟨u, hu, rfl⟩
    obtain ⟨h1, _, _⟩ := wfTriple_parts (hwf u hu)
    rw [show pyStripL (renderRowS u) = renderRowS u from pyStripL_mdRowL _ _ _]
    exact ⟨isSepRow_mdRowL h1, hnh u hu⟩
  unfold _parse_markdown_tableL
  rw [renderRows_strip hne hwf, splitLines_joinLines hmapne (renderRows_nl hwf),
    hcol]
  rfl

theorem joinLines_renderRows_ne_nil {T : List (String × String × String)}
    (hne : T ≠ []) : joinLines (T.map renderRowS) ≠ [] := by
  cases T with
  | nil => exact absurd rfl hne
  | cons t T' => exact joinLines_ne_nil (mdRowL_ne_nil _ _ _)

/-- C6: a three-column pipe-delimited table none of whose lines contains a
header keyword still parses to a valid result: the markdown strategy finds
no table (no header line, no separator row), and the delimiter strategy of
the fallback chain accepts every row with positional column order
(scene, voice, rationale). -/
theorem pipe_table_no_header_positional
    (T : List (String × String × String)) (hne : T ≠ [])
    (hwf : ∀ t ∈ T, wfTriple t = true)
    (hnh : ∀ t ∈ T, _is_table_header (renderRowS t) = false) :
    parse_script_output ⟨joinLines (T.map renderRowS)⟩ =
      ⟨T.map (fun t => t.1), T.map (fun t => t.2.1), T.map (fun t => t.2.2),
        ⟨joinLines (T.map renderRowS)⟩⟩ ∧
      (parse_script_output ⟨joinLines (T.map renderRowS)⟩).is_valid = true := by
  have hd := delimiter_rendered hne hwf hnh
  have hmd := markdown_rendered_none hne hwf hnh
  have hE1 : (T.map (fun t : String × String × String => t.1)).isEmpty = false :=
    isEmpty_false_of_ne_nil (by simpa using hne)
  have hE2 : (T.map (fun t : String × String × String => t.2.1)).isEmpty = false :=
    isEmpty_false_of_ne_nil (by simpa using hne)
  have hE3 : (T.map (fun t : String × String × String => t.2.2)).isEmpty = false :=
    isEmpty_false_of_ne_nil (by simpa using hne)
  have hvalid : (ScriptOutput.mk (T.map (fun t => t.1)) (T.map (fun t => t.2.1))
      (T.map (fun t => t.2.2)) ⟨joinLines (T.map renderRowS)⟩).is_valid
      = true := by
    simp [ScriptOutput.is_valid, hE1, hE2, hE3]
  have hnonempty : (pyStripL (joinLines (T.map renderRowS))).isEmpty = false := by
    rw [renderRows_strip hne hwf]
    exact isEmpty_false_of_ne_nil (joinLines_renderRows_ne_nil hne)
  have heq : parse_script_output ⟨joinLines (T.map renderRowS)⟩ =
      ⟨T.map (fun t => t.1), T.map (fun t => t.2.1), T.map (fun t => t.2.2),
        ⟨joinLines (T.map renderRowS)⟩⟩ := by
    unfold parse_script_output
    rw [show (String.mk (joinLines (T.map renderRowS))).data =
      joinLines (T.map renderRowS) from rfl, hnonempty]
    simp only [Bool.false_eq_true, if_false]
    rw [hmd, hd]
    simp only [pickValid, hvalid, if_true]
  exact ⟨heq, by rw [heq]; exact hvalid⟩

/-! #### The markdown strategy on a fully rendered table (C5) -/

theorem mdColumnIdxs_header : mdColumnIdxs (rowCells mdHeaderL1) = some (0, 1, 2) := by
  decide

theorem mdDataRow_rendered {t : String × String × String}
    (hwf : wfTriple t = true) :
    mdDataRow 0 1 2 (renderRowS t) = some (t.1.data, t.2.1.data, t.2.2.data) := by
  obtain ⟨h1, h2, h3⟩ := wfTriple_parts hwf
  unfold mdDataRow
  rw [show rowCells (renderRowS t) = [t.1.data, t.2.1.data, t.2.2.data] from
    rowCells_mdRowL h1 h2 h3]
  simp [cleanL_eq_self h1, cleanL_eq_self h2, cleanL_eq_self h3]

theorem collect_full_table {T : List (String × String × String)}
    (hwf : ∀ t ∈ T, wfTriple t = true) :
    collectTableLines false (mdHeaderL1 :: mdHeaderL2 :: T.map renderRowS) =
      mdHeaderL1 :: T.map renderRowS := by
  have hid : (T.map renderRowS).map pyStripL = T.map renderRowS := by
    rw [List.map_map]
    exact List.map_congr_left (fun t ht => pyStripL_mdRowL _ _ _)
  have hrows : collectTableLines true (T.map renderRowS) = T.map renderRowS := by
    rw [collect_true_map (fun l hl => ?_), hid]
    rcases List.mem_map.mp hl with ⟨u, hu, rfl⟩
    obtain ⟨h1, _, _⟩ := wfTriple_parts (hwf u hu)
    rw [show pyStripL (renderRowS u) = renderRowS u from pyStripL_mdRowL _ _ _]
    exact ⟨bar_mem_mdRowL _ _ _, isSepRow_mdRowL h1⟩
  rw [collect_cons_keep (by decide) (by decide) (by decide),
    collect_cons_sep (by decide) (by decide), hrows]
  rw [show pyStripL mdHeaderL1 = mdHeaderL1 from by decide]

theorem fullTable_lines_nl {T : List (String × String × String)}
    (hwf : ∀ t ∈ T, wfTriple t = true) :
    ∀ l ∈ mdHeaderL1 :: mdHeaderL2 :: T.map renderRowS, '\n' ∉ l := by
  intro l hl
  rcases List.mem_cons.mp hl with rfl | hl
  · decide
  rcases List.mem_cons.mp hl with rfl | hl
  · decide
  exact renderRows_nl hwf l hl

theorem fullTable_strip {T : List (String × String × String)}
    (_hwf : ∀ t ∈ T, wfTriple t = true) :
    pyStripL (joinLines (mdHeaderL1 :: mdHeaderL2 :: T.map renderRowS)) =
      joinLines (mdHeaderL1 :: mdHeaderL2 :: T.map renderRowS) := by
  refine pyStripL_eq_self (headNotSpaceB_joinLines (by decide)) ?_
  refine lastNotSpaceB_joinLines (by simp) ?_ ?_
  · intro l hl
    rcases List.mem_cons.mp hl with rfl | hl
    · decide
    rcases List.mem_cons.mp hl with rfl | hl
    · decide
    rcases List.mem_map.mp hl with ⟨u, _, rfl⟩
    exact mdRowL_ne_nil _ _ _
  · intro l hl
    rcases List.mem_cons.mp hl with rfl | hl
    · decide
    rcases List.mem_cons.mp hl with rfl | hl
    · decide
    rcases List.mem_map.mp hl with ⟨u, _, rfl⟩
    exact lastNotSpaceB_mdRowL _ _ _

theorem markdown_rendered_table {T : List (String × String × String)}
    (hne : T ≠ []) (hwf : ∀ t ∈ T, wfTriple t = true) :
    _parse_markdown_tableL
        (joinLines (mdHeaderL1 :: mdHeaderL2 :: T.map renderRowS)) =
      some ⟨T.map (fun t => t.1), T.map (fun t => t.2.1),
        T.map (fun t => t.2.2),
        ⟨joinLines (mdHeaderL1 :: mdHeaderL2 :: T.map renderRowS)⟩⟩ := by
  have hfun : ∀ x ∈ T, (mdDataRow 0 1 2 ∘ renderRowS) x =
      some ((fun u : String × String × String =>
        (u.1.data, u.2.1.data, u.2.2.data)) x) := by
    intro x hx
    dsimp only [Function.comp]
    exact mdDataRow_rendered (hwf x hx)
  cases T with
  | nil => exact absurd rfl hne
  | cons t0 T'' =>
    unfold _parse_markdown_tableL
    rw [fullTable_strip hwf, splitLines_joinLines (by simp) (fullTable_lines_nl hwf),
      collect_full_table hwf]
    show mdFromTableLines _ (mdHeaderL1 :: renderRowS t0 :: T''.map renderRowS) = _
    unfold mdFromTableLines
    dsimp only
    rw [mdColumnIdxs_header]
    dsimp only
    rw [show (renderRowS t0 :: T''.map renderRowS) =
      (t0 :: T'').map renderRowS from rfl, List.filterMap_map,
      filterMap_eq_map_of hfun,
      isEmpty_false_of_ne_nil (by simp : ((t0 :: T'').map (fun u :
        String × String × String => (u.1.data, u.2.1.data, u.2.2.data))) ≠ [])]
    simp only [Bool.false_eq_true, if_false, List.map_map]
    rfl

theorem pipe_table_no_header_positional_witness :
    parse_script_output "| a | b | c |" =
      ⟨["a"], ["b"], ["c"], "| a | b | c |"⟩ := by
  have h := (pipe_table_no_header_positional [("a", "b", "c")] (by simp)
    (by decide) (by decide)).1
  rw [show (⟨joinLines ([("a", "b", "c")].map renderRowS)⟩ : String) =
    "| a | b | c |" from by decide] at h
  simpa using h

theorem is_valid_facts {o : ScriptOutput} (h : o.is_valid = true) :
    o.storyboard ≠ [] ∧ o.storyboard.length = o.voiceover.length ∧
      o.voiceover.length = o.design_intent.length := by
  unfold ScriptOutput.is_valid at h
  split at h
  · cases h
  next hcond =>
    simp only [decide_eq_true_eq] at h
    refine ⟨fun hnil => hcond (Or.inl (by simp [hnil])), h.1, h.2⟩

theorem zipWith3_eq_map_zip {α β γ δ : Type _} (f : α → β → γ → δ) :
    ∀ (as : List α) (bs : List β) (cs : List γ),
      List.zipWith3 f as bs cs =
        (as.zip (bs.zip cs)).map (fun t => f t.1 t.2.1 t.2.2)
  | [], _, _ => by cases ‹List β› <;> rfl
  | _ :: _, [], _ => rfl
  | _ :: _, _ :: _, [] => rfl
  | a :: as, b :: bs, c :: cs => by
    simp only [List.zipWith3, List.zip_cons_cons, List.map_cons]
    rw [zipWith3_eq_map_zip f as bs cs]

/-- C5 (amended): for a valid output whose cells are all well formed,
parsing the rendered Markdown table recovers the three columns exactly;
the parsed result's raw_content is the rendered table itself (and not, as
the round-trip equality as stated would force, the original raw_content). -/
theorem tabular_round_trip (r : ScriptOutput) (hv : r.is_valid = true)
    (hwf1 : ∀ s ∈ r.storyboard, wfCell s = true)
    (hwf2 : ∀ s ∈ r.voiceover, wfCell s = true)
    (hwf3 : ∀ s ∈ r.design_intent, wfCell s = true) :
    (parse_script_output r.to_markdown_table).storyboard = r.storyboard ∧
      (parse_script_output r.to_markdown_table).voiceover = r.voiceover ∧
      (parse_script_output r.to_markdown_table).design_intent =
        r.design_intent ∧
      (parse_script_output r.to_markdown_table).raw_content =
        r.to_markdown_table := by
  obtain ⟨hsb_ne, hlen1, hlen2⟩ := is_valid_facts hv
  have hzlen : (r.voiceover.zip r.design_intent).length = r.storyboard.length := by
    rw [List.length_zip, ← hlen1, ← hlen2, ← hlen1]
    simp
  set T := r.storyboard.zip (r.voiceover.zip r.design_intent) with hT
  have hTlen : T.length = r.storyboard.length := by
    rw [hT, List.length_zip, hzlen]
    simp
  have hTne : T ≠ [] := by
    intro hnil
    have := hTlen
    rw [hnil] at this
    exact hsb_ne (List.eq_nil_of_length_eq_zero this.symm)
  have hwfT : ∀ t ∈ T, wfTriple t = true := by
    intro t ht
    rw [hT] at ht
    obtain ⟨h1, h23⟩ := List.of_mem_zip ht
    obtain ⟨h2, h3⟩ := List.of_mem_zip h23
    simp only [wfTriple, Bool.and_eq_true]
    exact ⟨⟨hwf1 _ h1, hwf2 _ h2⟩, hwf3 _ h3⟩
  have hrender : r.to_markdown_table =
      ⟨joinLines (mdHeaderL1 :: mdHeaderL2 :: T.map renderRowS)⟩ := by
    unfold ScriptOutput.to_markdown_table
    rw [if_neg (by simp [hv])]
    rw [zipWith3_eq_map_zip]
    rfl
  have hmd := markdown_rendered_table hTne hwfT
  have hX1 : T.map (fun t => t.1) = r.storyboard := by
    rw [hT]
    exact List.map_fst_zip _ _ (le_of_eq hzlen.symm)
  have hX2 : T.map (fun t => t.2.1) = r.voiceover := by
    rw [hT]
    have : (r.storyboard.zip (r.voiceover.zip r.design_intent)).map
        (fun t => t.2.1) =
        ((r.storyboard.zip (r.voiceover.zip r.design_intent)).map
          (fun t => t.2)).map (fun t => t.1) := by
      rw [List.map_map]
      rfl
    rw [this, List.map_snd_zip _ _ (le_of_eq hzlen),
      List.map_fst_zip _ _ (le_of_eq hlen2)]
  have hX3 : T.map (fun t => t.2.2) = r.design_intent := by
    rw [hT]
    have : (r.storyboard.zip (r.voiceover.zip r.design_intent)).map
        (fun t => t.2.2) =
        ((r.storyboard.zip (r.voiceover.zip r.design_intent)).map
          (fun t => t.2)).map (fun t => t.2) := by
      rw [List.map_map]
      rfl
    rw [this, List.map_snd_zip _ _ (le_of_eq hzlen),
      List.map_snd_zip _ _ (le_of_eq hlen2.symm)]
  have hvalidX : (ScriptOutput.mk (T.map (fun t => t.1))
      (T.map (fun t => t.2.1)) (T.map (fun t => t.2.2))
      ⟨joinLines (mdHeaderL1 :: mdHeaderL2 :: T.map renderRowS)⟩).is_valid
      = true := by
    rw [hX1, hX2, hX3]
    unfold ScriptOutput.is_valid
    rw [if_neg (by
      intro hc
      rcases hc with hc | hc | hc
      · exact hsb_ne (List.isEmpty_iff.mp hc)
      · exact hsb_ne (by
          have := List.isEmpty_iff.mp hc
          rw [this] at hlen1
          exact List.eq_nil_of_length_eq_zero (by simpa using hlen1))
      · exact hsb_ne (by
          have := List.isEmpty_iff.mp hc
          rw [this] at hlen2
          rw [← hlen1] at hlen2
          exact List.eq_nil_of_length_eq_zero (by simpa using hlen2)))]
    simp [hlen1, hlen2]
  have hnonempty : (pyStripL (joinLines
      (mdHeaderL1 :: mdHeaderL2 :: T.map renderRowS))).isEmpty = false := by
    rw [fullTable_strip hwfT]
    exact isEmpty_false_of_ne_nil (joinLines_ne_nil (by decide))
  have hparse : parse_script_output r.to_markdown_table =
      ⟨T.map (fun t => t.1), T.map (fun t => t.2.1), T.map (fun t => t.2.2),
        ⟨joinLines (mdHeaderL1 :: mdHeaderL2 :: T.map renderRowS)⟩⟩ := by
    rw [hrender]
    unfold parse_script_output
    rw [show (String.mk (joinLines (mdHeaderL1 :: mdHeaderL2 ::
      T.map renderRowS))).data =
      joinLines (mdHeaderL1 :: mdHeaderL2 :: T.map renderRowS) from rfl,
      hnonempty]
    simp only [Bool.false_eq_true, if_false]
    rw [hmd]
    simp only [pickValid, hvalidX, if_true]
  rw [hparse, hrender]
  exact ⟨by simpa using hX1, by simpa using hX2, by simpa using hX3, rfl⟩

/-- C5 counterexample: the round trip as literally stated fails on the
raw_content field — parsing the rendered table stores the rendered table
as raw_content, not the original (here empty) raw_content. -/
theorem tabular_round_trip_counterexample :
    parse_script_output
        (ScriptOutput.to_markdown_table ⟨["a"], ["b"], ["c"], ""⟩) ≠
      ⟨["a"], ["b"], ["c"], ""⟩ := by
  decide

theorem tabular_round_trip_witness :
    (parse_script_output
        (ScriptOutput.to_markdown_table ⟨["a"], ["b"], ["c"], "x"⟩)).storyboard
        = ["a"] ∧
      (parse_script_output
        (ScriptOutput.to_markdown_table ⟨["a"], ["b"], ["c"], "x"⟩)).voiceover
        = ["b"] ∧
      (parse_script_output
        (ScriptOutput.to_markdown_table
          ⟨["a"], ["b"], ["c"], "x"⟩)).design_intent = ["c"] := by
  have h := tabular_round_trip ⟨["a"], ["b"], ["c"], "x"⟩ (by decide)
    (by decide) (by decide) (by decide)
  exact ⟨h.1, h.2.1, h.2.2.1⟩

/-! ### Idempotence of the cleanup (C10)

After the `<[^>]+>` pass no tag pattern can match again: every remaining
'<' is either immediately followed by '>' or has no '>' anywhere after it
(`ltOk`).  Similarly the collapse pass leaves no adjacent '；' (`noAdjB`),
and the final strip leaves no edge whitespace.  A second cleanup is then
the identity — except for the single leading / trailing '；' strip, which
removes only one separator per pass. -/

/-- What may follow a surviving '<': an immediate '>', or no '>' at all. -/
def afterLt (v : List Char) : Prop := v.head? = some '>' ∨ '>' ∉ v

/-- Every '<' of the list is benign. -/
def ltOk (l : List Char) : Prop := ∀ u v, l = u ++ '<' :: v → afterLt v

theorem ltOk_nil : ltOk [] := by
  intro u v h
  exact absurd h (by simp)

theorem ltOk_cons {c : Char} {l : List Char} (hc : c = '<' → afterLt l)
    (hl : ltOk l) : ltOk (c :: l) := by
  intro u v h
  cases u with
  | nil =>
    simp only [List.nil_append, List.cons.injEq] at h
    exact h.2 ▸ hc h.1
  | cons x u' =>
    simp only [List.cons_append, List.cons.injEq] at h
    exact hl u' v h.2

theorem ltOk_tail {c : Char} {l : List Char} (h : ltOk (c :: l)) : ltOk l :=
  fun u v hv => h (c :: u) v (by rw [hv]; rfl)

theorem ltOk_head {l : List Char} (h : ltOk ('<' :: l)) : afterLt l :=
  h [] l rfl

theorem ltOk_of_suffix {u l : List Char} (hs : u <:+ l) (h : ltOk l) :
    ltOk u := by
  obtain ⟨w, rfl⟩ := hs
  intro a v hv
  exact h (w ++ a) v (by rw [hv, List.append_assoc])

theorem afterLt_of_prefix {v w : List Char} (hp : v <+: w) (h : afterLt w) :
    afterLt v := by
  rcases h with h | h
  · cases v with
    | nil => exact Or.inr (by simp)
    | cons x xs =>
      obtain ⟨r, hr⟩ := hp
      left
      rw [← hr] at h
      simpa using h
  · exact Or.inr (fun hm => h (hp.sublist.mem hm))

theorem ltOk_of_prefix {u l : List Char} (hp : u <+: l) (h : ltOk l) :
    ltOk u := by
  intro a v hv
  obtain ⟨w, rfl⟩ := hp
  refine afterLt_of_prefix ⟨w, rfl⟩ (h a (v ++ w) ?_)
  rw [hv]
  simp

theorem ltOk_of_infix {u l : List Char} (hi : u <:+: l) (h : ltOk l) :
    ltOk u := by
  obtain ⟨s, t, rfl⟩ := hi
  exact ltOk_of_prefix ⟨t, rfl⟩ (ltOk_of_suffix ⟨s, by simp⟩ h)

/-- No two adjacent '；'. -/
def noAdjB : List Char → Bool
  | a :: b :: t => !(a = '；' && b = '；') && noAdjB (b :: t)
  | _ => true

theorem noAdjB_tail {c : Char} {l : List Char} (h : noAdjB (c :: l) = true) :
    noAdjB l = true := by
  cases l with
  | nil => rfl
  | cons b t =>
    simp only [noAdjB, Bool.and_eq_true] at h
    exact h.2

theorem noAdjB_append_left : ∀ {l r : List Char},
    noAdjB (l ++ r) = true → noAdjB l = true
  | [], _, _ => rfl
  | [_], _, _ => rfl
  | a :: b :: t, r, h => by
    simp only [List.cons_append, noAdjB, Bool.and_eq_true] at h ⊢
    exact ⟨h.1, noAdjB_append_left (by simpa using h.2)⟩

theorem noAdjB_append_right : ∀ {l r : List Char},
    noAdjB (l ++ r) = true → noAdjB r = true
  | [], _, h => h
  | _ :: l', r, h => noAdjB_append_right (noAdjB_tail (l := l' ++ r) h)

theorem noAdjB_of_infix {u l : List Char} (hi : u <:+: l)
    (h : noAdjB l = true) : noAdjB u = true := by
  obtain ⟨s, t, rfl⟩ := hi
  exact noAdjB_append_left (noAdjB_append_right (by simpa [List.append_assoc] using h))

/-! #### The collapse pass -/

theorem collapseSemi_sublist : ∀ l : List Char, List.Sublist (collapseSemi l) l
  | [] => List.Sublist.refl _
  | [c] => List.Sublist.refl _
  | a :: b :: t => by
    by_cases h : a = '；' ∧ b = '；'
    · rw [collapseSemi, if_pos h]
      exact (collapseSemi_sublist (b :: t)).trans (List.sublist_cons_self _ _)
    · rw [collapseSemi, if_neg h]
      exact (collapseSemi_sublist (b :: t)).cons₂ a

theorem collapseSemi_head : ∀ {l : List Char}, l ≠ [] →
    (collapseSemi l).head? = l.head?
  | [], h => absurd rfl h
  | [c], _ => rfl
  | a :: b :: t, _ => by
    by_cases h : a = '；' ∧ b = '；'
    · rw [collapseSemi, if_pos h]
      rw [collapseSemi_head (by simp)]
      simp [h.1, h.2]
    · rw [collapseSemi, if_neg h]
      rfl

theorem collapseSemi_noAdj : ∀ l : List Char, noAdjB (collapseSemi l) = true
  | [] => rfl
  | [c] => rfl
  | a :: b :: t => by
    by_cases h : a = '；' ∧ b = '；'
    · rw [collapseSemi, if_pos h]
      exact collapseSemi_noAdj (b :: t)
    · rw [collapseSemi, if_neg h]
      rcases hc : collapseSemi (b :: t) with _ | ⟨x, xs⟩
      · rfl
      · have hx : x = b := by
          have := collapseSemi_head (l := b :: t) (by simp)
          rw [hc] at this
          simpa using this
        simp only [noAdjB, Bool.and_eq_true]
        refine ⟨?_, by rw [← hc]; exact collapseSemi_noAdj (b :: t)⟩
        subst hx
        rw [not_and_or] at h
        rcases h with h | h <;> simp [h]

theorem collapseSemi_ltOk : ∀ {l : List Char}, ltOk l → ltOk (collapseSemi l)
  | [], _ => ltOk_nil
  | [c], h => by rwa [collapseSemi]
  | a :: b :: t, h => by
    by_cases hab : a = '；' ∧ b = '；'
    · rw [collapseSemi, if_pos hab]
      exact collapseSemi_ltOk (ltOk_tail h)
    · rw [collapseSemi, if_neg hab]
      refine ltOk_cons (fun ha => ?_) (collapseSemi_ltOk (ltOk_tail h))
      subst ha
      have hbt := ltOk_head h
      rcases hbt with hbt | hbt
      · left
        rw [collapseSemi_head (by simp)]
        exact hbt
      · right
        intro hm
        exact hbt ((collapseSemi_sublist (b :: t)).mem hm)

theorem collapseSemi_eq_of_noAdj : ∀ {l : List Char}, noAdjB l = true →
    collapseSemi l = l
  | [], _ => rfl
  | [c], _ => rfl
  | a :: b :: t, h => by
    simp only [noAdjB, Bool.and_eq_true] at h
    rw [collapseSemi, if_neg (by
      intro hab
      rw [hab.1, hab.2] at h
      simpa using h.1)]
    rw [collapseSemi_eq_of_noAdj h.2]

/-! #### The `<[^>]+>` pass establishes ltOk -/

theorem takeWhile_nil_head {p : Char → Bool} {c : Char} {cs : List Char}
    (h : (c :: cs).takeWhile p = []) : p c = false := by
  rw [List.takeWhile_cons] at h
  split at h
  · simp at h
  · next hc => simpa using hc

theorem dropWhile_head_false {p : Char → Bool} : ∀ {l : List Char} {d : Char}
    {ds : List Char}, l.dropWhile p = d :: ds → p d = false
  | [], _, _, h => by simp at h
  | c :: cs, d, ds, h => by
    rw [List.dropWhile_cons] at h
    split at h
    · exact dropWhile_head_false h
    · next hc =>
      have : c = d := by
        injection h with h1 _
      rw [← this]
      simpa using hc

theorem drop_takeWhile_len (p : Char → Bool) (l : List Char) :
    l.drop (l.takeWhile p).length = l.dropWhile p := by
  calc l.drop (l.takeWhile p).length
      = (l.takeWhile p ++ l.dropWhile p).drop (l.takeWhile p).length := by
        rw [List.takeWhile_append_dropWhile]
    _ = l.dropWhile p := List.drop_left _ _

theorem subRepAux_nil (m : List Char → Option (List Char)) (rep : List Char) :
    ∀ fuel : Nat, subRepAux m rep fuel [] = []
  | 0 => rfl
  | _ + 1 => rfl

theorem tryAny_drop {c : Char} {cs r : List Char} (h : tryAny (c :: cs) = some r) :
    c = '<' ∧ List.Sublist ('>' :: r) cs := by
  have hc : c = '<' := by
    have := tryAny_head h
    simpa using this
  subst hc
  refine ⟨rfl, ?_⟩
  rw [tryAny] at h
  by_cases hbody : cs.takeWhile (fun c => !(c = '>')) = []
  · rw [if_pos hbody] at h
    cases h
  · rw [if_neg hbody] at h
    split at h
    · next rest heq =>
      injection h with h'
      subst h'
      have hsuf := List.drop_suffix (cs.takeWhile (fun c => !(c = '>'))).length cs
      rw [heq] at hsuf
      exact hsuf.sublist
    · cases h

theorem tryAny_tail {c : Char} {cs r : List Char} (h : tryAny (c :: cs) = some r) :
    List.Sublist r cs :=
  (List.sublist_cons_self '>' r).trans (tryAny_drop h).2

theorem tryAny_none {cs : List Char} (h : tryAny ('<' :: cs) = none) :
    cs = [] ∨ cs.head? = some '>' ∨ '>' ∉ cs := by
  cases cs with
  | nil => exact Or.inl rfl
  | cons d ds =>
    by_cases hd : d = '>'
    · exact Or.inr (Or.inl (by rw [hd]; rfl))
    · refine Or.inr (Or.inr ?_)
      rw [tryAny] at h
      have htw : List.takeWhile (fun c => !(c = '>')) (d :: ds)
          = d :: List.takeWhile (fun c => !(c = '>')) ds := by
        rw [List.takeWhile_cons, if_pos (by simpa using hd)]
      rw [htw, if_neg (by simp), List.length_cons, List.drop_succ_cons,
        drop_takeWhile_len] at h
      have hdw : ds.dropWhile (fun c => !(c = '>')) = [] := by
        rcases he : ds.dropWhile (fun c => !(c = '>')) with _ | ⟨e, es⟩
        · rfl
        · have hef : (fun c => !(c = '>')) e = false := dropWhile_head_false he
          have he' : e = '>' := by simpa using hef
          subst he'
          rw [he] at h
          cases h
      intro hmem
      rcases List.mem_cons.mp hmem with h1 | h1
      · exact hd h1.symm
      · have hall := List.dropWhile_eq_nil_iff.mp hdw
        simpa using hall _ h1

theorem subRepAux_any_sublist : ∀ (fuel : Nat) (l : List Char),
    List.Sublist (subRepAux tryAny [] fuel l) l
  | 0, l => List.Sublist.refl l
  | _ + 1, [] => List.Sublist.refl []
  | fuel + 1, c :: cs => by
    rw [subRepAux]
    rcases hmc : tryAny (c :: cs) with _ | r
    · exact (subRepAux_any_sublist fuel cs).cons₂ c
    · show List.Sublist ([] ++ subRepAux tryAny [] fuel r) (c :: cs)
      rw [List.nil_append]
      exact ((subRepAux_any_sublist fuel r).trans (tryAny_tail hmc)).trans
        (List.sublist_cons_self c cs)

theorem subRepAux_head_ne_lt {c : Char} (hc : ¬ c = '<') :
    ∀ (fuel : Nat) (cs : List Char),
      (subRepAux tryAny [] fuel (c :: cs)).head? = some c
  | 0, _ => rfl
  | _ + 1, cs => by
    rw [subRepAux]
    rcases hmc : tryAny (c :: cs) with _ | r
    · rfl
    · exact absurd (by simpa using tryAny_head hmc) hc

/-- Scanning with the `<[^>]+>` matcher leaves every remaining '<' benign. -/
theorem subRepAux_any_ltOk : ∀ (fuel : Nat) (l : List Char),
    l.length ≤ fuel → ltOk (subRepAux tryAny [] fuel l)
  | 0, l, h => by
    have hl : l = [] := List.length_eq_zero.mp (Nat.le_zero.mp h)
    subst hl
    exact ltOk_nil
  | fuel + 1, [], _ => by
    rw [subRepAux]
    exact ltOk_nil
  | fuel + 1, c :: cs, h => by
    rw [subRepAux]
    rcases hmc : tryAny (c :: cs) with _ | r
    · show ltOk (c :: subRepAux tryAny [] fuel cs)
      have hX : ltOk (subRepAux tryAny [] fuel cs) :=
        subRepAux_any_ltOk fuel cs (Nat.le_of_succ_le_succ (by simpa using h))
      refine ltOk_cons (fun hcc => ?_) hX
      subst hcc
      rcases tryAny_none hmc with hnil | hhd | hgt
      · subst hnil
        rw [subRepAux_nil]
        exact Or.inr (by simp)
      · cases cs with
        | nil => simp at hhd
        | cons d ds =>
          have hd : d = '>' := by simpa using hhd
          subst hd
          exact Or.inl (subRepAux_head_ne_lt (by decide) fuel ds)
      · exact Or.inr fun hmem => hgt ((subRepAux_any_sublist fuel cs).mem hmem)
    · show ltOk ([] ++ subRepAux tryAny [] fuel r)
      rw [List.nil_append]
      have hr : r.length ≤ fuel := by
        have hlen := (tryAny_drop hmc).2.length_le
        simp only [List.length_cons] at hlen h
        omega
      exact subRepAux_any_ltOk fuel r hr

theorem subRep_any_ltOk (l : List Char) : ltOk (subRep tryAny [] l) :=
  subRepAux_any_ltOk l.length l (Nat.le_refl _)

/-! #### Matcher inversion: every tag match needs a non-benign '<' -/

/-- A list a tag matcher can fire on: it starts with '<', the next character
is not '>', and a closing '>' follows. -/
def tagShape (l : List Char) : Prop :=
  ∃ x t, l = '<' :: x :: t ∧ ¬ x = '>' ∧ '>' ∈ x :: t

theorem isPrefixOf_head {name cs : List Char} {c0 : Char}
    (hp : name.isPrefixOf cs = true) (hname : name.head? = some c0) :
    cs.head? = some c0 := by
  obtain ⟨w, hw⟩ := List.isPrefixOf_iff_prefix.mp hp
  subst hw
  cases name with
  | nil => simp at hname
  | cons n0 nt => simpa using hname

theorem tryBr_shape {l r : List Char} (h : tryBr l = some r) : tagShape l := by
  unfold tryBr at h
  split at h
  · next cs =>
    refine ⟨'b', 'r' :: cs, rfl, by decide, ?_⟩
    have hgt : '>' ∈ cs.dropWhile pyIsSpace := by
      split at h
      · next rest heq => rw [heq]; simp
      · next rest heq => rw [heq]; simp
      · cases h
    exact List.mem_cons_of_mem _ (List.mem_cons_of_mem _
      ((List.dropWhile_sublist pyIsSpace).mem hgt))
  · cases h

theorem tryTagNamed_shape {name l r : List Char} {c0 : Char}
    (hname : name.head? = some c0) (hc0 : ¬ c0 = '>')
    (h : tryTagNamed name l = some r) : tagShape l := by
  unfold tryTagNamed at h
  split at h
  · next cs =>
    by_cases hs : cs.head? = some '/'
    · rw [if_pos hs] at h
      by_cases hp : name.isPrefixOf cs.tail
      · rw [if_pos hp] at h
        have hgt : '>' ∈ ((cs.tail.drop name.length).dropWhile pyIsSpace) := by
          split at h
          · next rest heq => rw [heq]; simp
          · next rest heq => rw [heq]; simp
          · cases h
        have hgtcs : '>' ∈ cs := (List.tail_sublist cs).mem
          ((List.drop_sublist _ _).mem ((List.dropWhile_sublist pyIsSpace).mem hgt))
        obtain ⟨d, ds, rfl⟩ : ∃ d ds, cs = d :: ds := by
          cases cs with
          | nil => simp at hs
          | cons d ds => exact ⟨d, ds, rfl⟩
        have hd : d = '/' := by simpa using hs
        subst hd
        exact ⟨'/', ds, rfl, by decide, hgtcs⟩
      · rw [if_neg hp] at h
        cases h
    · rw [if_neg hs] at h
      by_cases hp : name.isPrefixOf cs
      · rw [if_pos hp] at h
        have hgt : '>' ∈ ((cs.drop name.length).dropWhile pyIsSpace) := by
          split at h
          · next rest heq => rw [heq]; simp
          · next rest heq => rw [heq]; simp
          · cases h
        have hgtcs : '>' ∈ cs :=
          (List.drop_sublist _ _).mem ((List.dropWhile_sublist pyIsSpace).mem hgt)
        have hhd : cs.head? = some c0 := isPrefixOf_head hp hname
        obtain ⟨d, ds, rfl⟩ : ∃ d ds, cs = d :: ds := by
          cases cs with
          | nil => simp at hhd
          | cons d ds => exact ⟨d, ds, rfl⟩
        have hd : d = c0 := by simpa using hhd
        subst hd
        exact ⟨d, ds, rfl, hc0, hgtcs⟩
      · rw [if_neg hp] at h
        cases h
  · cases h

theorem trySpan_shape {l r : List Char} (h : trySpan l = some r) : tagShape l := by
  unfold trySpan at h
  split at h
  · next cs =>
    by_cases hs : cs.head? = some '/'
    · rw [if_pos hs] at h
      by_cases hp : ("span".data).isPrefixOf cs.tail
      · rw [if_pos hp] at h
        have hgt : '>' ∈ ((cs.tail.drop 4).dropWhile (fun c => !(c = '>'))) := by
          split at h
          · next rest heq => rw [heq]; simp
          · cases h
        have hgtcs : '>' ∈ cs := (List.tail_sublist cs).mem
          ((List.drop_sublist _ _).mem ((List.dropWhile_sublist _).mem hgt))
        obtain ⟨d, ds, rfl⟩ : ∃ d ds, cs = d :: ds := by
          cases cs with
          | nil => simp at hs
          | cons d ds => exact ⟨d, ds, rfl⟩
        have hd : d = '/' := by simpa using hs
        subst hd
        exact ⟨'/', ds, rfl, by decide, hgtcs⟩
      · rw [if_neg hp] at h
        cases h
    · rw [if_neg hs] at h
      by_cases hp : ("span".data).isPrefixOf cs
      · rw [if_pos hp] at h
        have hgt : '>' ∈ ((cs.drop 4).dropWhile (fun c => !(c = '>'))) := by
          split at h
          · next rest heq => rw [heq]; simp
          · cases h
        have hgtcs : '>' ∈ cs :=
          (List.drop_sublist _ _).mem ((List.dropWhile_sublist _).mem hgt)
        have hhd : cs.head? = some 's' := isPrefixOf_head hp (by decide)
        obtain ⟨d, ds, rfl⟩ : ∃ d ds, cs = d :: ds := by
          cases cs with
          | nil => simp at hhd
          | cons d ds => exact ⟨d, ds, rfl⟩
        have hd : d = 's' := by simpa using hhd
        subst hd
        exact ⟨'s', ds, rfl, by decide, hgtcs⟩
      · rw [if_neg hp] at h
        cases h
  · cases h

theorem tryAny_shape {l r : List Char} (h : tryAny l = some r) : tagShape l := by
  unfold tryAny at h
  split at h
  · next cs =>
    by_cases hbody : cs.takeWhile (fun c => !(c = '>')) = []
    · rw [if_pos hbody] at h
      cases h
    · rw [if_neg hbody] at h
      have hgtcs : '>' ∈ cs := by
        have hsuf := List.drop_suffix (cs.takeWhile (fun c => !(c = '>'))).length cs
        split at h
        · next rest heq =>
          rw [heq] at hsuf
          exact hsuf.sublist.mem (by simp)
        · cases h
      obtain ⟨d, ds, rfl⟩ : ∃ d ds, cs = d :: ds := by
        cases cs with
        | nil => exact absurd rfl hbody
        | cons d ds => exact ⟨d, ds, rfl⟩
      have hd : ¬ d = '>' := by
        intro hdd
        apply hbody
        rw [List.takeWhile_cons, if_neg (by simp [hdd])]
      exact ⟨d, ds, rfl, hd, hgtcs⟩
  · cases h

/-- If every firing of the matcher needs a non-benign '<', scanning a
benign list is the identity. -/
theorem subRepAux_eq_of_ltOk {m : List Char → Option (List Char)}
    {rep : List Char} (hm : ∀ l r, m l = some r → tagShape l) :
    ∀ (fuel : Nat) (l : List Char), ltOk l → subRepAux m rep fuel l = l
  | 0, _, _ => rfl
  | _ + 1, [], _ => rfl
  | fuel + 1, c :: cs, hl => by
    rw [subRepAux]
    rcases hmc : m (c :: cs) with _ | r
    · show c :: subRepAux m rep fuel cs = c :: cs
      rw [subRepAux_eq_of_ltOk hm fuel cs (ltOk_tail hl)]
    · obtain ⟨x, t, heq, hx, hgt⟩ := hm _ _ hmc
      have hc : c = '<' := by
        injection heq with h1 _
      have hcs : cs = x :: t := by
        injection heq with _ h2
      subst hc
      subst hcs
      rcases ltOk_head hl with hh | hh
      · exact absurd (by simpa using hh) hx
      · exact absurd hgt hh

theorem subRep_eq_of_ltOk {m : List Char → Option (List Char)}
    {rep : List Char} (hm : ∀ l r, m l = some r → tagShape l)
    {l : List Char} (hl : ltOk l) : subRep m rep l = l :=
  subRepAux_eq_of_ltOk hm l.length l hl

/-! #### Edge behaviour of the strips -/

theorem headNotSpaceB_of_head? {l : List Char} {c : Char}
    (h : l.head? = some c) (hc : pyIsSpace c = false) :
    headNotSpaceB l = true := by
  cases l with
  | nil => simp at h
  | cons a t =>
    have ha : a = c := by simpa using h
    subst ha
    simp [headNotSpaceB, hc]

theorem getLast?_of_suffix {u l : List Char} (hs : u <:+ l) (hu : u ≠ []) :
    u.getLast? = l.getLast? := by
  obtain ⟨w, rfl⟩ := hs
  exact (List.getLast?_append_of_ne_nil w hu).symm

/-- A stripped list is empty or has no whitespace at either end. -/
theorem pyStrip_ends (z : List Char) :
    pyStripL z = [] ∨ (headNotSpaceB (pyStripL z) = true ∧
      headNotSpaceB (pyStripL z).reverse = true) := by
  rcases hd2 : (z.dropWhile pyIsSpace).reverse.dropWhile pyIsSpace with _ | ⟨x, xs⟩
  · left
    unfold pyStripL
    rw [hd2]
    rfl
  · right
    have hres : pyStripL z = (x :: xs).reverse := by
      unfold pyStripL
      rw [hd2]
    constructor
    · have hsuf : (x :: xs) <:+ (z.dropWhile pyIsSpace).reverse := by
        rw [← hd2]
        exact List.dropWhile_suffix _
      have hlast : (x :: xs).getLast? = (z.dropWhile pyIsSpace).reverse.getLast? :=
        getLast?_of_suffix hsuf (by simp)
      rw [List.getLast?_reverse] at hlast
      obtain ⟨c, cs, hc⟩ : ∃ c cs, z.dropWhile pyIsSpace = c :: cs := by
        rcases hz : z.dropWhile pyIsSpace with _ | ⟨c, cs⟩
        · rw [hz] at hd2
          simp at hd2
        · exact ⟨c, cs, rfl⟩
      have hcns : pyIsSpace c = false := dropWhile_head_false hc
      have hhead : (pyStripL z).head? = some c := by
        rw [hres, List.head?_reverse, hlast, hc]
        rfl
      exact headNotSpaceB_of_head? hhead hcns
    · rw [hres, List.reverse_reverse]
      have hxns : pyIsSpace x = false := dropWhile_head_false hd2
      simp [headNotSpaceB, hxns]

theorem leadSemiStrip_eq {l : List Char} (hh : l.head? ≠ some '；')
    (hs : l = [] ∨ headNotSpaceB l = true) : leadSemiStrip l = l := by
  rcases hs with rfl | hs
  · rfl
  · unfold leadSemiStrip
    rw [dropWhile_eq_self_of_head hs]
    cases l with
    | nil => rfl
    | cons c cs =>
      have hc : ¬ c = '；' := fun h => hh (by rw [h]; rfl)
      split
      · next r heq =>
        injection heq with h1 _
        exact absurd h1 hc
      · rfl

theorem trailSemiStrip_eq {l : List Char} (hg : l.getLast? ≠ some '；')
    (hs : l = [] ∨ headNotSpaceB l.reverse = true) : trailSemiStrip l = l := by
  rcases hs with rfl | hs
  · rfl
  · unfold trailSemiStrip
    rw [dropWhile_eq_self_of_head hs]
    rcases hr : l.reverse with _ | ⟨c, cs⟩
    · rfl
    · have hc : ¬ c = '；' := by
        intro h
        apply hg
        rw [← List.head?_reverse, hr, h]
        rfl
      split
      · next r heq =>
        injection heq with h1 _
        exact absurd h1 hc
      · rfl

theorem leadSemiStrip_suffix (l : List Char) : leadSemiStrip l <:+ l := by
  unfold leadSemiStrip
  split
  · next r heq =>
    refine (List.dropWhile_suffix _).trans ((List.suffix_cons '；' r).trans ?_)
    rw [← heq]
    exact List.dropWhile_suffix _
  · exact List.suffix_refl l

theorem trailSemiStrip_prefix (l : List Char) : trailSemiStrip l <+: l := by
  unfold trailSemiStrip
  split
  · next r heq =>
    have h1 : r.dropWhile pyIsSpace <:+ l.reverse := by
      refine (List.dropWhile_suffix _).trans ((List.suffix_cons '；' r).trans ?_)
      rw [← heq]
      exact List.dropWhile_suffix _
    obtain ⟨w, hw⟩ := h1
    refine ⟨w.reverse, ?_⟩
    have h2 := congrArg List.reverse hw
    rw [List.reverse_append, List.reverse_reverse] at h2
    exact h2
  · exact List.prefix_refl l

theorem pyStripL_infix (l : List Char) : pyStripL l <:+: l := by
  have h1 : (l.dropWhile pyIsSpace).reverse.dropWhile pyIsSpace <:+
      (l.dropWhile pyIsSpace).reverse := List.dropWhile_suffix _
  obtain ⟨w, hw⟩ := h1
  have h2 : pyStripL l <+: l.dropWhile pyIsSpace := by
    refine ⟨w.reverse, ?_⟩
    have h3 := congrArg List.reverse hw
    rw [List.reverse_append, List.reverse_reverse] at h3
    exact h3
  obtain ⟨t, ht⟩ := h2
  obtain ⟨s, hsf⟩ : l.dropWhile pyIsSpace <:+ l := List.dropWhile_suffix _
  refine ⟨s, t, ?_⟩
  conv_rhs => rw [← hsf]
  rw [List.append_assoc, ht]

/-! #### Idempotence of the cleanup on '；'-free edges -/

/-- The five tag-substitution passes of `_clean_html_tags`. -/
def tagStripped (l : List Char) : List Char :=
  subRep tryAny []
    (subRep trySpan []
      (subRep (tryTagNamed "div".data) []
        (subRep (tryTagNamed "p".data) []
          (subRep tryBr ['；'] l))))

theorem cleanL_eq (l : List Char) : cleanL l =
    pyStripL (trailSemiStrip (leadSemiStrip (collapseSemi (tagStripped l)))) :=
  rfl

theorem cleanL_idem {l : List Char}
    (hh : (cleanL l).head? ≠ some '；') (hg : (cleanL l).getLast? ≠ some '；') :
    cleanL (cleanL l) = cleanL l := by
  have hlt6 : ltOk (collapseSemi (tagStripped l)) :=
    collapseSemi_ltOk (subRep_any_ltOk _)
  have hna6 : noAdjB (collapseSemi (tagStripped l)) = true := collapseSemi_noAdj _
  have hsuf7 := leadSemiStrip_suffix (collapseSemi (tagStripped l))
  have hlt7 := ltOk_of_suffix hsuf7 hlt6
  have hna7 := noAdjB_of_infix hsuf7.isInfix hna6
  have hpre8 := trailSemiStrip_prefix (leadSemiStrip (collapseSemi (tagStripped l)))
  have hlt8 := ltOk_of_prefix hpre8 hlt7
  have hna8 := noAdjB_of_infix hpre8.isInfix hna7
  have hinf9 := pyStripL_infix
    (trailSemiStrip (leadSemiStrip (collapseSemi (tagStripped l))))
  have hltT : ltOk (cleanL l) := by
    rw [cleanL_eq]
    exact ltOk_of_infix hinf9 hlt8
  have hnaT : noAdjB (cleanL l) = true := by
    rw [cleanL_eq]
    exact noAdjB_of_infix hinf9 hna8
  have hendsT : cleanL l = [] ∨ (headNotSpaceB (cleanL l) = true ∧
      headNotSpaceB (cleanL l).reverse = true) :=
    pyStrip_ends (trailSemiStrip (leadSemiStrip (collapseSemi (tagStripped l))))
  have htag : tagStripped (cleanL l) = cleanL l := by
    unfold tagStripped
    rw [subRep_eq_of_ltOk (fun _ _ hr => tryBr_shape hr) hltT,
      subRep_eq_of_ltOk (fun _ _ hr => tryTagNamed_shape
        (by decide : ("p".data).head? = some 'p') (by decide) hr) hltT,
      subRep_eq_of_ltOk (fun _ _ hr => tryTagNamed_shape
        (by decide : ("div".data).head? = some 'd') (by decide) hr) hltT,
      subRep_eq_of_ltOk (fun _ _ hr => trySpan_shape hr) hltT,
      subRep_eq_of_ltOk (fun _ _ hr => tryAny_shape hr) hltT]
  have hcoll : collapseSemi (cleanL l) = cleanL l := collapseSemi_eq_of_noAdj hnaT
  have hlead : leadSemiStrip (cleanL l) = cleanL l := by
    refine leadSemiStrip_eq hh ?_
    rcases hendsT with h | h
    · exact Or.inl h
    · exact Or.inr h.1
  have htrail : trailSemiStrip (cleanL l) = cleanL l := by
    refine trailSemiStrip_eq hg ?_
    rcases hendsT with h | h
    · exact Or.inl h
    · exact Or.inr h.2
  have hstrip : pyStripL (cleanL l) = cleanL l := by
    rcases hendsT with h | h
    · rw [h]
      rfl
    · exact pyStripL_eq_self h.1 h.2
  calc cleanL (cleanL l)
      = pyStripL (trailSemiStrip (leadSemiStrip (collapseSemi
          (tagStripped (cleanL l))))) := cleanL_eq _
    _ = cleanL l := by rw [htag, hcoll, hlead, htrail, hstrip]

/-- C10: the markup cleanup is not idempotent for every string — the
leading/trailing '；'-strip removes only one separator per pass, so a string
that cleans to a '；'-edged result is cleaned further by a second pass:
cleaning "； ；a" yields "；a", and cleaning again yields "a". -/
theorem clean_html_tags_idempotent_counterexample :
    _clean_html_tags (_clean_html_tags ⟨"； ；a".data⟩) ≠
      _clean_html_tags ⟨"； ；a".data⟩ := by
  have h1 : _clean_html_tags ⟨"； ；a".data⟩ = ⟨"；a".data⟩ := by decide
  rw [h1]
  decide

/-- C10 (amended): _clean_html_tags is idempotent on every string whose
cleaned output neither starts nor ends with the separator '；' — after one
pass no tag pattern can match again, no adjacent '；' remain, and no edge
whitespace remains, so only the single leading/trailing '；'-strip can act
again, and the hypotheses rule that out. -/
theorem clean_html_tags_idempotent (s : String)
    (hh : (_clean_html_tags s).data.head? ≠ some '；')
    (hg : (_clean_html_tags s).data.getLast? ≠ some '；') :
    _clean_html_tags (_clean_html_tags s) = _clean_html_tags s := by
  simp only [_clean_html_tags] at hh hg ⊢
  rw [cleanL_idem hh hg]

theorem clean_html_tags_idempotent_witness :
    ((_clean_html_tags ⟨"a<br>b".data⟩).data.head? ≠ some '；' ∧
      (_clean_html_tags ⟨"a<br>b".data⟩).data.getLast? ≠ some '；') ∧
    _clean_html_tags (_clean_html_tags ⟨"a<br>b".data⟩) =
      _clean_html_tags ⟨"a<br>b".data⟩ :=
  ⟨⟨by decide, by decide⟩,
    clean_html_tags_idempotent ⟨"a<br>b".data⟩ (by decide) (by decide)⟩

end CreativElixir
